import Mathlib

/-!
# Verification of the upload/reconciliation pipeline (`run.py`)

A shallow embedding of the core logic of the watched-folder video upload
pipeline: configuration resolution (`ConfigManager.get_group_config`,
`ConfigManager._process_group_config`), the filename-prefix file state
machine (`FileManager`), the per-file processing and scan loop
(`VideoProcessor.process_video`, `main`), and the manifest-driven playlist
reconciliation (`VideoProcessor._update_playlist_videos`,
`YouTubeUploader.update_video`).

Python strings are modelled as `List Char` (a Python `str` is a sequence of
code points).  Python dictionaries are modelled as association lists whose
lookup returns the first binding; merge (`dict.update`) puts the overriding
bindings in front, which gives the same lookup semantics.  Fallible Python
code (exceptions) is modelled with `Except`/`Bool` error outcomes.
-/

/-- A Python string: a sequence of unicode code points. -/
abbrev PyStr := List Char

/-- Convenience conversion from a Lean string literal. -/
def pys (s : String) : PyStr := s.data

/-- `title[:100] if len(title) > 100 else title` — the 100-character title
truncation used in `_prepare_request` (line 261) and `update_video`
(line 387). -/
def pyTruncate100 (t : PyStr) : PyStr :=
  if t.length > 100 then t.take 100 else t

/-! ## Positional manifest-reference resolution

`_update_playlist_videos` (lines 567-575) turns the signed integer of a
`goto.slog.gg` link into an index into the playlist snapshot:

```
position = int(match.group(2))
if position < 0:
    position = len(playlist_items) + position
else:
    position = position - 1
if position < len(playlist_items):
    video_id = playlist_items[position]['videoId']
```

`playlist_items[position]` is Python list indexing: a negative index `i`
with `-len ≤ i` accesses element `len + i`, and an index `< -len` raises
`IndexError`.  When `position >= len(playlist_items)` nothing happens in
this iteration (fall-through; no index is accessed). -/

/-- Outcome of resolving one positional reference against a snapshot of
length `n`. -/
inductive PosResult where
  | resolved (offset : Nat)
  | skipped
  | indexError
deriving DecidableEq, Repr

/-- The re-based position computed at lines 568-572: `n + p` for a negative
index, `p - 1` otherwise. -/
def rawPos (n : Nat) (p : Int) : Int :=
  if p < 0 then (n : Int) + p else p - 1

/-- Resolution of a signed positional index `p` against a playlist snapshot
of length `n`, exactly as computed by lines 567-575 of `run.py` together
with Python's list-indexing semantics. -/
def resolvePositional (n : Nat) (p : Int) : PosResult :=
  if rawPos n p < (n : Int) then
    if 0 ≤ rawPos n p then .resolved (rawPos n p).toNat
    else if -(n : Int) ≤ rawPos n p then .resolved ((n : Int) + rawPos n p).toNat
    else .indexError
  else .skipped

/-- The resolution mapping as the behaviour actually forces it to be
stated: computed offset `o` (`p-1` for non-negative `p`, `n+p` for negative
`p`); references with `o ≥ n` are skipped; `0 ≤ o < n` resolves to offset
`o`; `-n ≤ o < 0` wraps around to offset `n+o` (Python negative indexing);
`o < -n` raises an `IndexError`. -/
def amendedResolve (n : Nat) (p : Int) : PosResult :=
  if (n : Int) ≤ rawPos n p then .skipped
  else if 0 ≤ rawPos n p then .resolved (rawPos n p).toNat
  else if -(n : Int) ≤ rawPos n p then .resolved ((n : Int) + rawPos n p).toNat
  else .indexError

/-- **C1** (counterexample).  The claim says every reference whose resolved
offset falls outside `[0, n)` is silently skipped.  For index `0` against a
snapshot of length `2` the resolved offset is `0 - 1 = -1`, which is
outside `[0, 2)`, yet the code does not skip the reference: Python negative
indexing makes it resolve to the *last* snapshot item (offset `1`). -/
theorem C1_positional_skip_counterexample :
    ((0 : Int) - 1 < 0) ∧
    resolvePositional 2 0 = .resolved 1 ∧
    resolvePositional 2 0 ≠ .skipped := by
  decide

/-- **C1** (amended).  A positive index `p` resolves to snapshot offset
`p-1` and a negative index `p` resolves to offset `n+p`, but only
references whose resolved offset is `≥ n` are silently skipped; a resolved
offset `o` with `-n ≤ o < 0` wraps around (Python negative indexing) to the
item at offset `n+o`, and a resolved offset `< -n` raises an `IndexError`
instead of being skipped. -/
theorem C1_positional_resolution :
    (∀ (n : Nat) (p : Int), resolvePositional n p = amendedResolve n p) ∧
    (∀ (n : Nat) (p : Int), 0 < p → p ≤ (n : Int) →
      resolvePositional n p = .resolved (p - 1).toNat) ∧
    (∀ (n : Nat) (p : Int), (n : Int) < p →
      resolvePositional n p = .skipped) ∧
    (∀ (n : Nat) (p : Int), p ≤ 0 → resolvePositional n p ≠ .skipped) := by
  refine ⟨?_, ?_, ?_, ?_⟩
  · intro n p
    unfold resolvePositional amendedResolve
    by_cases h : rawPos n p < (n : Int)
    · rw [if_pos h, if_neg (show ¬ (n : Int) ≤ rawPos n p by omega)]
    · rw [if_neg h, if_pos (show (n : Int) ≤ rawPos n p by omega)]
  · intro n p hp hpn
    have hq : rawPos n p = p - 1 := by unfold rawPos; rw [if_neg (by omega)]
    unfold resolvePositional
    rw [hq, if_pos (by omega), if_pos (by omega)]
  · intro n p hp
    have hq : rawPos n p = p - 1 := by unfold rawPos; rw [if_neg (by omega)]
    unfold resolvePositional
    rw [hq, if_neg (by omega)]
  · intro n p hp
    have hlt : rawPos n p < (n : Int) := by unfold rawPos; split <;> omega
    unfold resolvePositional
    rw [if_pos hlt]
    split
    · simp
    · split <;> simp

/-- **C1** (witness for the amended theorem's hypotheses): index `1`
against a 2-item snapshot resolves to offset `0`; index `3` against a
2-item snapshot is skipped; index `-1` is never skipped. -/
theorem C1_positional_resolution_witness :
    resolvePositional 2 1 = .resolved 0 ∧
    resolvePositional 2 3 = .skipped ∧
    resolvePositional 2 (-1) ≠ .skipped := by
  refine ⟨?_, ?_, ?_⟩
  · have h := C1_positional_resolution.2.1 2 1 (by decide) (by decide)
    simpa using h
  · exact C1_positional_resolution.2.2.1 2 3 (by decide)
  · exact C1_positional_resolution.2.2.2 2 (-1) (by decide)

/-! ## Playlist reconciliation (`_update_playlist_videos`, lines 531-628)

The reconciler scans the manifest with two regex patterns — direct
`youtu.be` links first, then positional `goto.slog.gg` links — and
processes the resulting match list in order.  We embed the per-match loop
over that match list (`Ref` below records a match: the matched substring,
the captured display title, and either the captured video id or the
captured signed index).  The platform snapshot (`get_playlist_items`) is a
list of `PItem`.

Two Python details are modelled faithfully:
* `video_id` is a plain local variable.  A positional match whose computed
  position is `≥ len(playlist_items)` assigns nothing, so the loop falls
  through to the membership test with the *previous* match's `video_id` —
  or raises `NameError` when there is no previous match.  This and the
  `IndexError` of Python list indexing abort the whole reconciliation
  (`err` flag); the exception handler at lines 626-628 re-raises, so no log
  entry and no `_v2` file are produced, while `update_video` calls already
  issued remain issued.
* `update_video` (lines 384-399) truncates the submitted title to 100
  characters. -/

/-- One playlist snapshot entry as collected by `get_playlist_items`
(lines 370-376): video id, title, description. -/
structure PItem where
  videoId : PyStr
  title : PyStr
  descr : PyStr
deriving DecidableEq, Repr

/-- One manifest match: the matched substring (`match.group(0)`), the
captured title (`match.group(1)`), and the direct video id or signed
positional index (`match.group(2)`). -/
inductive Ref where
  | direct (orig title vid : PyStr)
  | positional (orig title : PyStr) (idx : Int)
deriving DecidableEq, Repr

/-- The body submitted by `youtube.videos().update` on behalf of
`update_video`. -/
structure UpdateCall where
  vid : PyStr
  title : PyStr
  descr : PyStr
deriving DecidableEq, Repr

/-- A recorded title change (`changes.append(...)`, lines 599-603). -/
structure TitleChange where
  video_id : PyStr
  old_title : PyStr
  new_title : PyStr
deriving DecidableEq, Repr

/-- `update_video` (lines 384-399): truncates the title to 100 characters
and submits title and description. -/
def update_video (videoId title descr : PyStr) : UpdateCall :=
  ⟨videoId, pyTruncate100 title, descr⟩

/-- The description synthesised at line 606:
`f"제목: {match.group(1)}\n\n로그\n{video_item.get('description', '')}"`. -/
def updateDescr (newTitle oldDescr : PyStr) : PyStr :=
  pys "제목: " ++ newTitle ++ pys "\n\n로그\n" ++ oldDescr

/-- The canonical direct-link form built at line 579:
`f'[{md_title}](https://youtu.be/{video_id})'`. -/
def canonicalLink (title vid : PyStr) : PyStr :=
  pys "[" ++ title ++ pys "](https://youtu.be/" ++ vid ++ pys ")"

/-- The loop state of `_update_playlist_videos`: the current value of the
local `video_id` (absent before the first assignment), the `changes` and
`youtube_links` accumulators, the `update_video` calls issued so far, and
whether an exception has aborted the loop. -/
structure LoopState where
  lastVid : Option PyStr
  changes : List TitleChange
  updates : List UpdateCall
  links : List (PyStr × PyStr)
  err : Bool
deriving DecidableEq, Repr

def initLoopState : LoopState := ⟨none, [], [], [], false⟩

/-- `next((item for item in playlist_items if item['videoId'] == video_id), None)`
(line 593). -/
def findItem (items : List PItem) (vid : PyStr) : Option PItem :=
  items.find? (fun it => it.videoId == vid)

/-- Lines 588-606: the membership test against `playlist_video_ids`, the
item lookup, the title comparison (`normalize_title` is the identity), and
on mismatch the `changes` record plus the `update_video` call. -/
def compareAndUpdate (items : List PItem) (s : LoopState) (title vid : PyStr) :
    LoopState :=
  if (items.map (·.videoId)).contains vid then
    match findItem items vid with
    | none => s
    | some item =>
        if item.title ≠ title then
          { s with
            changes := s.changes ++ [⟨vid, item.title, title⟩],
            updates := s.updates ++
              [update_video vid title (updateDescr title item.descr)] }
        else s
  else s

def defaultItem : PItem := ⟨[], [], []⟩

/-- One iteration of the match loop (lines 560-606). -/
def stepRef (items : List PItem) (s : LoopState) (r : Ref) : LoopState :=
  if s.err then s
  else
    match r with
    | .direct orig title vid =>
        compareAndUpdate items
          { s with lastVid := some vid, links := s.links ++ [(orig, orig)] }
          title vid
    | .positional orig title p =>
        match resolvePositional items.length p with
        | .resolved off =>
            compareAndUpdate items
              { s with lastVid := some ((items.getD off defaultItem).videoId),
                       links := s.links ++
                         [(orig, canonicalLink title
                            ((items.getD off defaultItem).videoId))] }
              title ((items.getD off defaultItem).videoId)
        | .skipped =>
            match s.lastVid with
            | none => { s with err := true }
            | some vid => compareAndUpdate items s title vid
        | .indexError => { s with err := true }

/-- The whole match loop of one `_update_playlist_videos` run over the
ordered match list (direct-pattern matches first, then positional ones,
each in order of occurrence). -/
def reconcileLoop (items : List PItem) (refs : List Ref) : LoopState :=
  refs.foldl (stepRef items) initLoopState

/-- Lines 608-624: the change log is appended only when the run completed
and `changes` is non-empty. -/
def logProduced (s : LoopState) : Bool := !s.err && !s.changes.isEmpty

/-- Lines 612-624: the `_v2` sibling file is written only when the run
completed and `changes` is non-empty. -/
def v2Produced (s : LoopState) : Bool := !s.err && !s.changes.isEmpty

/-- Effect on the platform of one issued `update_video` call: every
playlist entry of that video shows the submitted title and description
afterwards. -/
def applyUpdate (items : List PItem) (u : UpdateCall) : List PItem :=
  items.map (fun it =>
    if it.videoId = u.vid then { it with title := u.title, descr := u.descr }
    else it)

/-- Effect of a sequence of `update_video` calls, in order. -/
def applyUpdates (items : List PItem) (us : List UpdateCall) : List PItem :=
  us.foldl applyUpdate items

/-- The sequence of `(video_id, manifest_title)` pairs reaching the
comparison at line 597, as a function of the snapshot length, the snapshot
video-id sequence and the current `video_id` variable.  (The list stops
where the run aborts.) -/
def comparePairsGo (n : Nat) (vids : List PyStr) :
    Option PyStr → List Ref → List (PyStr × PyStr)
  | _, [] => []
  | lv, r :: rest =>
      match r with
      | .direct _ title vid =>
          (vid, title) :: comparePairsGo n vids (some vid) rest
      | .positional _ title p =>
          match resolvePositional n p with
          | .resolved off =>
              (vids.getD off [], title) ::
                comparePairsGo n vids (some (vids.getD off [])) rest
          | .skipped =>
              match lv with
              | none => []
              | some vid => (vid, title) :: comparePairsGo n vids lv rest
          | .indexError => []

def comparePairs (items : List PItem) (refs : List Ref) :
    List (PyStr × PyStr) :=
  comparePairsGo items.length (items.map (·.videoId)) none refs

/-- Title of the snapshot entry found for a video id, if any. -/
def lookupTitle (items : List PItem) (vid : PyStr) : Option PyStr :=
  (findItem items vid).map (·.title)

/-- The title of the last issued update for a video id, if any. -/
def lastTitle (us : List UpdateCall) (v : PyStr) : Option PyStr :=
  us.foldl (fun acc u => if u.vid = v then some u.title else acc) none

/-! ### Structural lemmas about updates and lookups -/

theorem pyTruncate100_of_le {t : PyStr} (h : t.length ≤ 100) :
    pyTruncate100 t = t := by
  unfold pyTruncate100
  rw [if_neg (by omega)]

theorem pyTruncate100_length_le (t : PyStr) :
    (pyTruncate100 t).length ≤ 100 := by
  unfold pyTruncate100
  split
  · simp
  · omega

theorem videoId_applyUpdate (items : List PItem) (u : UpdateCall) :
    (applyUpdate items u).map (·.videoId) = items.map (·.videoId) := by
  unfold applyUpdate
  rw [List.map_map]
  apply List.map_congr_left
  intro it _
  by_cases h : it.videoId = u.vid <;> simp [h]

theorem videoId_applyUpdates (items : List PItem) (us : List UpdateCall) :
    (applyUpdates items us).map (·.videoId) = items.map (·.videoId) := by
  induction us generalizing items with
  | nil => rfl
  | cons u us ih =>
      have h : applyUpdates items (u :: us) = applyUpdates (applyUpdate items u) us := rfl
      rw [h, ih, videoId_applyUpdate]

theorem length_applyUpdates (items : List PItem) (us : List UpdateCall) :
    (applyUpdates items us).length = items.length := by
  have h := congrArg List.length (videoId_applyUpdates items us)
  simpa using h

theorem videoId_getD (items : List PItem) (off : Nat) :
    (items.getD off defaultItem).videoId = (items.map (·.videoId)).getD off [] := by
  induction items generalizing off with
  | nil => cases off <;> rfl
  | cons it rest ih =>
      cases off with
      | zero => rfl
      | succ k => simpa using ih k

theorem findItem_applyUpdate (items : List PItem) (u : UpdateCall) (v : PyStr) :
    findItem (applyUpdate items u) v =
      (findItem items v).map (fun it =>
        if it.videoId = u.vid then { it with title := u.title, descr := u.descr }
        else it) := by
  induction items with
  | nil => rfl
  | cons it rest ih =>
      unfold findItem applyUpdate at ih ⊢
      simp only [List.map_cons]
      have hv : (if it.videoId = u.vid
          then { it with title := u.title, descr := u.descr } else it).videoId
          = it.videoId := by
        split <;> rfl
      rw [List.find?_cons, List.find?_cons, hv]
      cases hb : (it.videoId == v) with
      | true => rfl
      | false => exact ih

theorem findItem_videoId {items : List PItem} {v : PyStr} {it : PItem}
    (h : findItem items v = some it) : it.videoId = v := by
  have := List.find?_some h
  simpa using this

theorem lookupTitle_applyUpdate (items : List PItem) (u : UpdateCall) (v : PyStr) :
    lookupTitle (applyUpdate items u) v =
      if v = u.vid then (lookupTitle items v).map (fun _ => u.title)
      else lookupTitle items v := by
  unfold lookupTitle
  rw [findItem_applyUpdate, Option.map_map]
  cases hf : findItem items v with
  | none => split <;> rfl
  | some it =>
      have hid : it.videoId = v := findItem_videoId hf
      by_cases h : v = u.vid
      · rw [if_pos h]
        simp [Function.comp, hid, h]
      · rw [if_neg h]
        simp [Function.comp, hid, h]

theorem lastTitle_foldl_some (v : PyStr) (us : List UpdateCall) :
    ∀ (a t0 : PyStr),
      (us.foldl (fun acc u => if u.vid = v then some u.title else acc)
          (some a)).getD t0
        = (lastTitle us v).getD a := by
  induction us with
  | nil => intro a t0; rfl
  | cons u us ih =>
      intro a t0
      unfold lastTitle
      simp only [List.foldl_cons]
      by_cases h : u.vid = v
      · rw [if_pos h, if_pos h, ih u.title t0, ih u.title a]
      · rw [if_neg h, if_neg h]
        exact ih a t0

theorem lookupTitle_applyUpdates (items : List PItem) (us : List UpdateCall)
    (v : PyStr) :
    lookupTitle (applyUpdates items us) v =
      (lookupTitle items v).map (fun t0 => (lastTitle us v).getD t0) := by
  induction us generalizing items with
  | nil =>
      cases ho : lookupTitle items v <;> simp [applyUpdates, lastTitle, ho]
  | cons u us ih =>
      have h : applyUpdates items (u :: us) = applyUpdates (applyUpdate items u) us := rfl
      rw [h, ih, lookupTitle_applyUpdate]
      by_cases hv : v = u.vid
      · rw [if_pos hv]
        cases ho : lookupTitle items v with
        | none => rfl
        | some t0 =>
            simp only [Option.map_some']
            have e1 : lastTitle (u :: us) v
                = us.foldl (fun acc u => if u.vid = v then some u.title else acc)
                    (some u.title) := by
              unfold lastTitle
              simp [List.foldl_cons, hv.symm]
            rw [e1]
            rw [lastTitle_foldl_some v us u.title t0]
      · rw [if_neg hv]
        have e1 : lastTitle (u :: us) v = lastTitle us v := by
          unfold lastTitle
          simp only [List.foldl_cons]
          rw [if_neg (fun e => hv e.symm)]
        rw [e1]

theorem lastTitle_foldl_mem (v : PyStr) (us : List UpdateCall) :
    ∀ (a : Option PyStr) (tu : PyStr),
      us.foldl (fun acc u => if u.vid = v then some u.title else acc) a = some tu →
      (∃ u ∈ us, u.vid = v ∧ u.title = tu) ∨ a = some tu := by
  induction us with
  | nil => intro a tu h; right; exact h
  | cons u us ih =>
      intro a tu h
      simp only [List.foldl_cons] at h
      rcases ih _ tu h with ⟨u', hu', hv', ht'⟩ | hinit
      · left; exact ⟨u', List.mem_cons_of_mem _ hu', hv', ht'⟩
      · by_cases hc : u.vid = v
        · rw [if_pos hc] at hinit
          left
          exact ⟨u, List.mem_cons_self u us, hc, Option.some_inj.mp hinit⟩
        · rw [if_neg hc] at hinit
          right; exact hinit

theorem lastTitle_some_mem {v tu : PyStr} {us : List UpdateCall}
    (h : lastTitle us v = some tu) :
    ∃ u ∈ us, u.vid = v ∧ u.title = tu := by
  rcases lastTitle_foldl_mem v us none tu h with h' | h'
  · exact h'
  · cases h'

theorem lastTitle_foldl_isSome (v : PyStr) (us : List UpdateCall) :
    ∀ (a : Option PyStr), a.isSome = true →
      (us.foldl (fun acc u => if u.vid = v then some u.title else acc) a).isSome
        = true := by
  induction us with
  | nil => intro a h; exact h
  | cons u us ih =>
      intro a h
      simp only [List.foldl_cons]
      apply ih
      by_cases hc : u.vid = v
      · rw [if_pos hc]; rfl
      · rw [if_neg hc]; exact h

theorem lastTitle_isSome_of_mem {v : PyStr} {us : List UpdateCall} {u : UpdateCall}
    (hu : u ∈ us) (hv : u.vid = v) : (lastTitle us v).isSome = true := by
  induction us with
  | nil => cases hu
  | cons u' us ih =>
      rcases List.mem_cons.mp hu with rfl | hu'
      · unfold lastTitle
        simp only [List.foldl_cons, if_pos hv]
        exact lastTitle_foldl_isSome v us _ rfl
      · unfold lastTitle at ih ⊢
        simp only [List.foldl_cons]
        by_cases hc : u'.vid = v
        · rw [if_pos hc]
          exact lastTitle_foldl_isSome v us _ rfl
        · rw [if_neg hc]
          exact ih hu'

/-! ### Lemmas about the reconciliation loop -/

theorem stepRef_of_err (items : List PItem) (s : LoopState) (r : Ref)
    (h : s.err = true) : stepRef items s r = s := by
  unfold stepRef
  rw [if_pos h]

theorem foldl_stepRef_of_err (items : List PItem) (refs : List Ref)
    (s : LoopState) (h : s.err = true) :
    refs.foldl (stepRef items) s = s := by
  induction refs with
  | nil => rfl
  | cons r rest ih =>
      rw [List.foldl_cons, stepRef_of_err items s r h, ih]

theorem cau_cases (items : List PItem) (s : LoopState) (title vid : PyStr) :
    compareAndUpdate items s title vid = s ∨
    ∃ item, findItem items vid = some item ∧ item.title ≠ title ∧
      compareAndUpdate items s title vid =
        { s with
          changes := s.changes ++ [⟨vid, item.title, title⟩],
          updates := s.updates ++
            [update_video vid title (updateDescr title item.descr)] } := by
  unfold compareAndUpdate
  split
  · split
    · left; rfl
    · next item hf =>
        split
        · next hne => right; exact ⟨item, hf, hne, rfl⟩
        · left; rfl
  · left; rfl

theorem cau_lastVid (items : List PItem) (s : LoopState) (title vid : PyStr) :
    (compareAndUpdate items s title vid).lastVid = s.lastVid := by
  rcases cau_cases items s title vid with h | ⟨item, _, _, h⟩ <;> rw [h]

theorem cau_err (items : List PItem) (s : LoopState) (title vid : PyStr) :
    (compareAndUpdate items s title vid).err = s.err := by
  rcases cau_cases items s title vid with h | ⟨item, _, _, h⟩ <;> rw [h]

theorem cau_eq_self (items : List PItem) (s : LoopState) (title vid : PyStr)
    (hg : ∀ t2, lookupTitle items vid = some t2 → t2 = title) :
    compareAndUpdate items s title vid = s := by
  rcases cau_cases items s title vid with h | ⟨item, hf, hne, _⟩
  · exact h
  · have : item.title = title := hg item.title (by simp [lookupTitle, hf])
    exact absurd this hne

theorem contains_videoId_true (items : List PItem) (v : PyStr) (item : PItem)
    (hf : findItem items v = some item) :
    ((items.map (·.videoId)).contains v) = true := by
  have h1 : item ∈ items := List.mem_of_find?_eq_some hf
  have h2 : item.videoId = v := findItem_videoId hf
  have hmem : v ∈ items.map (·.videoId) := h2 ▸ List.mem_map_of_mem _ h1
  exact List.elem_iff.mpr hmem

theorem cau_mismatch (items : List PItem) (s : LoopState) (title vid : PyStr)
    (item : PItem) (hf : findItem items vid = some item)
    (hne : item.title ≠ title) :
    compareAndUpdate items s title vid =
      { s with
        changes := s.changes ++ [⟨vid, item.title, title⟩],
        updates := s.updates ++
          [update_video vid title (updateDescr title item.descr)] } := by
  unfold compareAndUpdate
  rw [if_pos (contains_videoId_true items vid item hf), hf]
  dsimp only
  rw [if_pos hne]

theorem cau_updates_ext (items : List PItem) (s : LoopState) (title vid : PyStr) :
    ∃ ex, (compareAndUpdate items s title vid).updates = s.updates ++ ex := by
  rcases cau_cases items s title vid with h | ⟨item, _, _, h⟩
  · exact ⟨[], by rw [h, List.append_nil]⟩
  · exact ⟨_, by rw [h]⟩

theorem stepRef_direct (items : List PItem) (s : LoopState)
    (orig title vid : PyStr) (he : s.err = false) :
    stepRef items s (.direct orig title vid) =
      compareAndUpdate items
        { s with lastVid := some vid, links := s.links ++ [(orig, orig)] }
        title vid := by
  unfold stepRef
  rw [if_neg (by simp [he])]

theorem stepRef_pos_resolved (items : List PItem) (s : LoopState)
    (orig title : PyStr) (p : Int) (off : Nat) (he : s.err = false)
    (hres : resolvePositional items.length p = .resolved off) :
    stepRef items s (.positional orig title p) =
      compareAndUpdate items
        { s with lastVid := some ((items.getD off defaultItem).videoId),
                 links := s.links ++
                   [(orig, canonicalLink title ((items.getD off defaultItem).videoId))] }
        title ((items.getD off defaultItem).videoId) := by
  unfold stepRef
  rw [if_neg (by simp [he])]
  dsimp only
  rw [hres]

theorem stepRef_pos_skipped_none (items : List PItem) (s : LoopState)
    (orig title : PyStr) (p : Int) (he : s.err = false) (hlv : s.lastVid = none)
    (hres : resolvePositional items.length p = .skipped) :
    stepRef items s (.positional orig title p) = { s with err := true } := by
  unfold stepRef
  rw [if_neg (by simp [he])]
  dsimp only
  rw [hres, hlv]

theorem stepRef_pos_skipped_some (items : List PItem) (s : LoopState)
    (orig title vid : PyStr) (p : Int) (he : s.err = false)
    (hlv : s.lastVid = some vid)
    (hres : resolvePositional items.length p = .skipped) :
    stepRef items s (.positional orig title p) =
      compareAndUpdate items s title vid := by
  unfold stepRef
  rw [if_neg (by simp [he])]
  dsimp only
  rw [hres, hlv]

theorem stepRef_pos_indexError (items : List PItem) (s : LoopState)
    (orig title : PyStr) (p : Int) (he : s.err = false)
    (hres : resolvePositional items.length p = .indexError) :
    stepRef items s (.positional orig title p) = { s with err := true } := by
  unfold stepRef
  rw [if_neg (by simp [he])]
  dsimp only
  rw [hres]

theorem stepRef_updates_ext (items : List PItem) (s : LoopState) (r : Ref) :
    ∃ ex, (stepRef items s r).updates = s.updates ++ ex := by
  by_cases he : s.err = true
  · rw [stepRef_of_err items s r he]
    exact ⟨[], (List.append_nil _).symm⟩
  · have he' : s.err = false := by simpa using he
    cases r with
    | direct orig title vid =>
        rw [stepRef_direct items s orig title vid he']
        exact cau_updates_ext items _ title vid
    | positional orig title p =>
        cases hres : resolvePositional items.length p with
        | resolved off =>
            rw [stepRef_pos_resolved items s orig title p off he' hres]
            exact cau_updates_ext items _ title _
        | skipped =>
            cases hlv : s.lastVid with
            | none =>
                rw [stepRef_pos_skipped_none items s orig title p he' hlv hres]
                exact ⟨[], (List.append_nil _).symm⟩
            | some vid =>
                rw [stepRef_pos_skipped_some items s orig title vid p he' hlv hres]
                exact cau_updates_ext items s title vid
        | indexError =>
            rw [stepRef_pos_indexError items s orig title p he' hres]
            exact ⟨[], (List.append_nil _).symm⟩

theorem foldl_updates_ext (items : List PItem) (refs : List Ref) :
    ∀ s : LoopState,
      ∃ ex, (refs.foldl (stepRef items) s).updates = s.updates ++ ex := by
  induction refs with
  | nil => intro s; exact ⟨[], (List.append_nil _).symm⟩
  | cons r rest ih =>
      intro s
      rw [List.foldl_cons]
      rcases stepRef_updates_ext items s r with ⟨ex1, h1⟩
      rcases ih (stepRef items s r) with ⟨ex2, h2⟩
      exact ⟨ex1 ++ ex2, by rw [h2, h1, List.append_assoc]⟩

theorem foldl_updates_mem (items : List PItem) (refs : List Ref)
    (s : LoopState) (u : UpdateCall) (hu : u ∈ s.updates) :
    u ∈ (refs.foldl (stepRef items) s).updates := by
  rcases foldl_updates_ext items refs s with ⟨ex, h⟩
  rw [h]
  exact List.mem_append_left _ hu

theorem comparePairsGo_direct (n : Nat) (vids : List PyStr) (lv : Option PyStr)
    (orig title vid : PyStr) (rest : List Ref) :
    comparePairsGo n vids lv (.direct orig title vid :: rest)
      = (vid, title) :: comparePairsGo n vids (some vid) rest := rfl

theorem comparePairsGo_cons_pos (n : Nat) (vids : List PyStr)
    (lv : Option PyStr) (orig title : PyStr) (p : Int) (rest : List Ref) :
    comparePairsGo n vids lv (.positional orig title p :: rest)
      = match resolvePositional n p with
        | .resolved off =>
            (vids.getD off [], title) ::
              comparePairsGo n vids (some (vids.getD off [])) rest
        | .skipped =>
            match lv with
            | none => []
            | some vid => (vid, title) :: comparePairsGo n vids lv rest
        | .indexError => [] := rfl

theorem comparePairsGo_pos_resolved (n : Nat) (vids : List PyStr)
    (lv : Option PyStr) (orig title : PyStr) (p : Int) (off : Nat)
    (rest : List Ref) (hres : resolvePositional n p = .resolved off) :
    comparePairsGo n vids lv (.positional orig title p :: rest)
      = (vids.getD off [], title) ::
          comparePairsGo n vids (some (vids.getD off [])) rest := by
  rw [comparePairsGo_cons_pos, hres]

theorem comparePairsGo_pos_skipped_none (n : Nat) (vids : List PyStr)
    (orig title : PyStr) (p : Int) (rest : List Ref)
    (hres : resolvePositional n p = .skipped) :
    comparePairsGo n vids none (.positional orig title p :: rest) = [] := by
  rw [comparePairsGo_cons_pos, hres]

theorem comparePairsGo_pos_skipped_some (n : Nat) (vids : List PyStr)
    (orig title vid : PyStr) (p : Int) (rest : List Ref)
    (hres : resolvePositional n p = .skipped) :
    comparePairsGo n vids (some vid) (.positional orig title p :: rest)
      = (vid, title) :: comparePairsGo n vids (some vid) rest := by
  rw [comparePairsGo_cons_pos, hres]

theorem comparePairsGo_pos_indexError (n : Nat) (vids : List PyStr)
    (lv : Option PyStr) (orig title : PyStr) (p : Int) (rest : List Ref)
    (hres : resolvePositional n p = .indexError) :
    comparePairsGo n vids lv (.positional orig title p :: rest) = [] := by
  rw [comparePairsGo_cons_pos, hres]

/-- If every `(video_id, manifest_title)` pair reaching the comparison has
the snapshot title already equal to the manifest title, the loop records no
new changes. -/
theorem foldl_no_new_changes (items : List PItem) (refs : List Ref) :
    ∀ s : LoopState,
      (s.err = false →
        ∀ vt ∈ comparePairsGo items.length (items.map (·.videoId)) s.lastVid refs,
          ∀ t2, lookupTitle items vt.1 = some t2 → t2 = vt.2) →
      (refs.foldl (stepRef items) s).changes = s.changes := by
  induction refs with
  | nil => intro s _; rfl
  | cons r rest ih =>
      intro s hgood
      by_cases he : s.err = true
      · rw [foldl_stepRef_of_err items _ s he]
      · have he' : s.err = false := by simpa using he
        rw [List.foldl_cons]
        cases r with
        | direct orig title vid =>
            rw [stepRef_direct items s orig title vid he']
            have hpairs := comparePairsGo_direct items.length
              (items.map (·.videoId)) s.lastVid orig title vid rest
            have hhead : ∀ t2, lookupTitle items vid = some t2 → t2 = title := by
              intro t2 h2
              exact hgood he' (vid, title)
                (by rw [hpairs]; exact List.mem_cons_self _ _) t2 h2
            rw [cau_eq_self items _ title vid hhead]
            exact ih _ (fun _ vt hvt t2 h2 =>
              hgood he' vt (by rw [hpairs]; exact List.mem_cons_of_mem _ hvt) t2 h2)
        | positional orig title p =>
            cases hres : resolvePositional items.length p with
            | resolved off =>
                rw [stepRef_pos_resolved items s orig title p off he' hres]
                have hvid : (items.getD off defaultItem).videoId
                    = (items.map (·.videoId)).getD off [] := videoId_getD items off
                have hpairs := comparePairsGo_pos_resolved items.length
                  (items.map (·.videoId)) s.lastVid orig title p off rest hres
                have hhead : ∀ t2,
                    lookupTitle items ((items.getD off defaultItem).videoId) = some t2 →
                    t2 = title := by
                  intro t2 h2
                  refine hgood he' ((items.getD off defaultItem).videoId, title)
                    ?_ t2 h2
                  rw [hpairs, hvid]
                  exact List.mem_cons_self _ _
                rw [cau_eq_self items _ title _ hhead]
                refine ih _ (fun _ vt hvt t2 h2 => hgood he' vt ?_ t2 h2)
                rw [hpairs]
                apply List.mem_cons_of_mem
                have hlv : some ((items.getD off defaultItem).videoId)
                    = some ((items.map (·.videoId)).getD off []) := by rw [hvid]
                rw [← hlv]
                exact hvt
            | skipped =>
                cases hlv : s.lastVid with
                | none =>
                    rw [stepRef_pos_skipped_none items s orig title p he' hlv hres]
                    rw [foldl_stepRef_of_err items rest _ rfl]
                | some vid =>
                    rw [stepRef_pos_skipped_some items s orig title vid p he' hlv hres]
                    have hpairs : comparePairsGo items.length
                        (items.map (·.videoId)) s.lastVid
                        (.positional orig title p :: rest)
                        = (vid, title) ::
                            comparePairsGo items.length (items.map (·.videoId))
                              (some vid) rest := by
                      rw [hlv]
                      exact comparePairsGo_pos_skipped_some _ _ _ _ _ _ _ hres
                    have hhead : ∀ t2, lookupTitle items vid = some t2 → t2 = title := by
                      intro t2 h2
                      exact hgood he' (vid, title)
                        (by rw [hpairs]; exact List.mem_cons_self _ _) t2 h2
                    rw [cau_eq_self items s title vid hhead]
                    refine ih s (fun _ vt hvt t2 h2 => hgood he' vt ?_ t2 h2)
                    rw [hpairs]
                    apply List.mem_cons_of_mem
                    rw [hlv] at hvt
                    exact hvt
            | indexError =>
                rw [stepRef_pos_indexError items s orig title p he' hres]
                rw [foldl_stepRef_of_err items rest _ rfl]

/-- Every `update_video` call issued by the loop comes from a compared
`(video_id, manifest_title)` pair, with the full manifest title embedded in
the synthesised description. -/
theorem foldl_updates_from_pairs (items : List PItem) (refs : List Ref) :
    ∀ (s : LoopState) (u : UpdateCall),
      u ∈ (refs.foldl (stepRef items) s).updates →
      u ∈ s.updates ∨
        ∃ vt ∈ comparePairsGo items.length (items.map (·.videoId)) s.lastVid refs,
          ∃ d0, u = update_video vt.1 vt.2 (updateDescr vt.2 d0) := by
  induction refs with
  | nil => intro s u h; left; exact h
  | cons r rest ih =>
      intro s u hu
      by_cases he : s.err = true
      · rw [foldl_stepRef_of_err items _ s he] at hu
        left; exact hu
      · have he' : s.err = false := by simpa using he
        rw [List.foldl_cons] at hu
        cases r with
        | direct orig title vid =>
            rw [stepRef_direct items s orig title vid he'] at hu
            rcases ih _ u hu with h | ⟨vt, hvt, d0, hud⟩
            · rcases cau_cases items
                { s with lastVid := some vid, links := s.links ++ [(orig, orig)] }
                title vid with hc | ⟨item, hf, hne, hc⟩
              · rw [hc] at h; left; exact h
              · rw [hc] at h
                rcases List.mem_append.mp h with h1 | h1
                · left; exact h1
                · right
                  refine ⟨(vid, title), ?_, item.descr, ?_⟩
                  · rw [comparePairsGo_direct]; exact List.mem_cons_self _ _
                  · simpa using List.mem_singleton.mp h1
            · right
              refine ⟨vt, ?_, d0, hud⟩
              rw [comparePairsGo_direct]
              apply List.mem_cons_of_mem
              rw [cau_lastVid] at hvt
              exact hvt
        | positional orig title p =>
            cases hres : resolvePositional items.length p with
            | resolved off =>
                rw [stepRef_pos_resolved items s orig title p off he' hres] at hu
                rcases ih _ u hu with h | ⟨vt, hvt, d0, hud⟩
                · rcases cau_cases items
                    { s with lastVid := some ((items.getD off defaultItem).videoId),
                             links := s.links ++
                               [(orig, canonicalLink title
                                  ((items.getD off defaultItem).videoId))] }
                    title ((items.getD off defaultItem).videoId) with
                    hc | ⟨item, hf, hne, hc⟩
                  · rw [hc] at h; left; exact h
                  · rw [hc] at h
                    rcases List.mem_append.mp h with h1 | h1
                    · left; exact h1
                    · right
                      refine ⟨((items.getD off defaultItem).videoId, title), ?_,
                        item.descr, ?_⟩
                      · rw [comparePairsGo_pos_resolved _ _ _ orig title p off rest hres,
                          ← videoId_getD]
                        exact List.mem_cons_self _ _
                      · simpa using List.mem_singleton.mp h1
                · right
                  refine ⟨vt, ?_, d0, hud⟩
                  rw [comparePairsGo_pos_resolved _ _ _ orig title p off rest hres,
                    ← videoId_getD]
                  apply List.mem_cons_of_mem
                  rw [cau_lastVid] at hvt
                  exact hvt
            | skipped =>
                cases hlv : s.lastVid with
                | none =>
                    rw [stepRef_pos_skipped_none items s orig title p he' hlv hres,
                      foldl_stepRef_of_err items rest _ rfl] at hu
                    left; exact hu
                | some vid =>
                    rw [stepRef_pos_skipped_some items s orig title vid p he' hlv hres]
                      at hu
                    rcases ih _ u hu with h | ⟨vt, hvt, d0, hud⟩
                    · rcases cau_cases items s title vid with hc | ⟨item, hf, hne, hc⟩
                      · rw [hc] at h; left; exact h
                      · rw [hc] at h
                        rcases List.mem_append.mp h with h1 | h1
                        · left; exact h1
                        · right
                          refine ⟨(vid, title), ?_, item.descr, ?_⟩
                          · rw [comparePairsGo_pos_skipped_some _ _ orig title vid p rest hres]
                            exact List.mem_cons_self _ _
                          · simpa using List.mem_singleton.mp h1
                    · right
                      refine ⟨vt, ?_, d0, hud⟩
                      rw [comparePairsGo_pos_skipped_some _ _ orig title vid p rest hres]
                      apply List.mem_cons_of_mem
                      rw [cau_lastVid] at hvt
                      rw [hlv] at hvt
                      exact hvt
            | indexError =>
                rw [stepRef_pos_indexError items s orig title p he' hres,
                  foldl_stepRef_of_err items rest _ rfl] at hu
                left; exact hu

theorem lookupTitle_some_findItem {items : List PItem} {v t0 : PyStr}
    (hl : lookupTitle items v = some t0) :
    ∃ item, findItem items v = some item ∧ item.title = t0 := by
  unfold lookupTitle at hl
  cases hf : findItem items v with
  | none => rw [hf] at hl; cases hl
  | some item =>
      rw [hf] at hl
      exact ⟨item, rfl, by simpa using hl⟩

/-- Every compared pair whose snapshot title differs from the manifest
title gives rise to an issued `update_video` call for that video id. -/
theorem foldl_mismatch_update (items : List PItem) (refs : List Ref) :
    ∀ s : LoopState, s.err = false →
      ∀ vt ∈ comparePairsGo items.length (items.map (·.videoId)) s.lastVid refs,
        ∀ t0, lookupTitle items vt.1 = some t0 → t0 ≠ vt.2 →
          ∃ u ∈ (refs.foldl (stepRef items) s).updates, u.vid = vt.1 := by
  induction refs with
  | nil => intro s _ vt hvt; cases hvt
  | cons r rest ih =>
      intro s he' vt hvt t0 hl hne
      rw [List.foldl_cons]
      cases r with
      | direct orig title vid =>
          rw [comparePairsGo_direct] at hvt
          rw [stepRef_direct items s orig title vid he']
          rcases List.mem_cons.mp hvt with heq | htail
          · rcases lookupTitle_some_findItem (heq ▸ hl) with ⟨item, hf, hit⟩
            have hneit : item.title ≠ title := by
              rw [hit]
              exact fun e => hne (e.trans (congrArg Prod.snd heq.symm))
            refine ⟨update_video vid title (updateDescr title item.descr), ?_, by
              rw [heq]; rfl⟩
            apply foldl_updates_mem
            rw [cau_mismatch items _ title vid item hf hneit]
            exact List.mem_append_right _ (by simp)
          · refine ih _ (by rw [cau_err]; exact he') vt ?_ t0 hl hne
            rw [cau_lastVid]
            exact htail
      | positional orig title p =>
          cases hres : resolvePositional items.length p with
          | resolved off =>
              rw [comparePairsGo_pos_resolved _ _ _ orig title p off rest hres,
                ← videoId_getD] at hvt
              rw [stepRef_pos_resolved items s orig title p off he' hres]
              rcases List.mem_cons.mp hvt with heq | htail
              · rcases lookupTitle_some_findItem (heq ▸ hl) with ⟨item, hf, hit⟩
                have hneit : item.title ≠ title := by
                  rw [hit]
                  exact fun e => hne (e.trans (congrArg Prod.snd heq.symm))
                refine ⟨update_video ((items.getD off defaultItem).videoId) title
                  (updateDescr title item.descr), ?_, by rw [heq]; rfl⟩
                apply foldl_updates_mem
                rw [cau_mismatch items _ title _ item hf hneit]
                exact List.mem_append_right _ (by simp)
              · refine ih _ (by rw [cau_err]; exact he') vt ?_ t0 hl hne
                rw [cau_lastVid]
                exact htail
          | skipped =>
              cases hlv : s.lastVid with
              | none =>
                  rw [hlv, comparePairsGo_pos_skipped_none _ _ orig title p rest hres]
                    at hvt
                  cases hvt
              | some vid =>
                  rw [hlv,
                    comparePairsGo_pos_skipped_some _ _ orig title vid p rest hres]
                    at hvt
                  rw [stepRef_pos_skipped_some items s orig title vid p he' hlv hres]
                  rcases List.mem_cons.mp hvt with heq | htail
                  · rcases lookupTitle_some_findItem (heq ▸ hl) with ⟨item, hf, hit⟩
                    have hneit : item.title ≠ title := by
                      rw [hit]
                      exact fun e => hne (e.trans (congrArg Prod.snd heq.symm))
                    refine ⟨update_video vid title (updateDescr title item.descr),
                      ?_, by rw [heq]; rfl⟩
                    apply foldl_updates_mem
                    rw [cau_mismatch items s title vid item hf hneit]
                    exact List.mem_append_right _ (by simp)
                  · refine ih _ (by rw [cau_err]; exact he') vt ?_ t0 hl hne
                    rw [cau_lastVid, hlv]
                    exact htail
          | indexError =>
              rw [comparePairsGo_pos_indexError _ _ _ orig title p rest hres] at hvt
              cases hvt

/-- **C2** (counterexample).  Running the reconciliation a second time on
the same match list, after the first run's updates have been applied to the
playlist, is *not* always change-free.  (a) Two references to the same
video with different titles (`"A"` and `"B"`): the first run compares both
against the one fetched snapshot and updates the video twice, leaving title
`"B"`; the second run then records the change `B --(변경)--> A` again, and
appends a log entry and writes a `_v2` file.  (b) A manifest title of 101
characters: `update_video` truncates it to 100 characters on submission, so
every later run sees a title drift again. -/
theorem C2_idempotence_counterexample :
    ((reconcileLoop
        (applyUpdates [⟨pys "v", pys "Old", []⟩]
          (reconcileLoop [⟨pys "v", pys "Old", []⟩]
            [.direct (pys "o1") (pys "A") (pys "v"),
             .direct (pys "o2") (pys "B") (pys "v")]).updates)
        [.direct (pys "o1") (pys "A") (pys "v"),
         .direct (pys "o2") (pys "B") (pys "v")]).changes
      = [⟨pys "v", pys "B", pys "A"⟩] ∧
     logProduced
        (reconcileLoop
          (applyUpdates [⟨pys "v", pys "Old", []⟩]
            (reconcileLoop [⟨pys "v", pys "Old", []⟩]
              [.direct (pys "o1") (pys "A") (pys "v"),
               .direct (pys "o2") (pys "B") (pys "v")]).updates)
          [.direct (pys "o1") (pys "A") (pys "v"),
           .direct (pys "o2") (pys "B") (pys "v")]) = true ∧
     v2Produced
        (reconcileLoop
          (applyUpdates [⟨pys "v", pys "Old", []⟩]
            (reconcileLoop [⟨pys "v", pys "Old", []⟩]
              [.direct (pys "o1") (pys "A") (pys "v"),
               .direct (pys "o2") (pys "B") (pys "v")]).updates)
          [.direct (pys "o1") (pys "A") (pys "v"),
           .direct (pys "o2") (pys "B") (pys "v")]) = true) ∧
    (reconcileLoop
        (applyUpdates [⟨pys "v", pys "Old", []⟩]
          (reconcileLoop [⟨pys "v", pys "Old", []⟩]
            [.direct (pys "o") (List.replicate 101 'a') (pys "v")]).updates)
        [.direct (pys "o") (List.replicate 101 'a') (pys "v")]).changes
      ≠ [] := by
  constructor
  · refine ⟨by decide, by decide, by decide⟩
  · decide

/-- **C2** (amended).  Reconciliation is idempotent *provided* (a) no two
compared references resolve to the same video id with different manifest
titles, and (b) every compared manifest title is at most 100 characters
(so `update_video`'s truncation is the identity).  Under those two
conditions a second run on the same match list, after the first run's
title updates have been applied to the playlist, produces zero
`TitleChange`s, appends no log entry, and creates no `_v2` file. -/
theorem C2_reconcile_idempotent (items : List PItem) (refs : List Ref)
    (hfun : (comparePairs items refs).Pairwise
      (fun a b => a.1 = b.1 → a.2 = b.2))
    (hlen : ∀ vt ∈ comparePairs items refs, vt.2.length ≤ 100) :
    (reconcileLoop
        (applyUpdates items (reconcileLoop items refs).updates) refs).changes
      = [] ∧
    logProduced (reconcileLoop
        (applyUpdates items (reconcileLoop items refs).updates) refs) = false ∧
    v2Produced (reconcileLoop
        (applyUpdates items (reconcileLoop items refs).updates) refs) = false := by
  have hzero : (reconcileLoop
      (applyUpdates items (reconcileLoop items refs).updates) refs).changes = [] := by
    apply foldl_no_new_changes
    intro _ vt hvt t2 hl2
    rw [length_applyUpdates, videoId_applyUpdates] at hvt
    have hvtP : vt ∈ comparePairs items refs := hvt
    rw [lookupTitle_applyUpdates] at hl2
    rcases Option.map_eq_some'.mp hl2 with ⟨t0, hl0, hgetd⟩
    revert hgetd
    cases hLT : lastTitle (reconcileLoop items refs).updates vt.1 with
    | some tu =>
        intro hgetd
        have ht2 : tu = t2 := by simpa using hgetd
        rcases lastTitle_some_mem hLT with ⟨u, hu, huv, hut⟩
        rcases foldl_updates_from_pairs items refs initLoopState u hu with
          h0 | ⟨vt', hvt', d0, hud⟩
        · cases h0
        · have hvt'P : vt' ∈ comparePairs items refs := hvt'
          have htitle : u.title = pyTruncate100 vt'.2 := by rw [hud]; rfl
          have hvid : u.vid = vt'.1 := by rw [hud]; rfl
          have h100 : pyTruncate100 vt'.2 = vt'.2 :=
            pyTruncate100_of_le (hlen vt' hvt'P)
          have hsym : Symmetric
              (fun a b : PyStr × PyStr => a.1 = b.1 → a.2 = b.2) := by
            intro x y hxy e
            exact (hxy e.symm).symm
          have heq1 : vt.1 = vt'.1 := by rw [← huv, hvid]
          have heq2 : vt.2 = vt'.2 := by
            rcases eq_or_ne vt vt' with hvv | hne'
            · rw [hvv]
            · exact List.Pairwise.forall hsym hfun hvtP hvt'P hne' heq1
          rw [← ht2, ← hut, htitle, h100, heq2]
    | none =>
        intro hgetd
        have ht2 : t0 = t2 := by simpa using hgetd
        by_contra hne
        have hne' : t0 ≠ vt.2 := fun e => hne (ht2 ▸ e)
        rcases foldl_mismatch_update items refs initLoopState rfl vt hvt t0 hl0 hne'
          with ⟨u, hu, huv⟩
        have hs : (lastTitle (reconcileLoop items refs).updates vt.1).isSome = true :=
          lastTitle_isSome_of_mem hu huv
        rw [hLT] at hs
        cases hs
  refine ⟨hzero, ?_, ?_⟩
  · unfold logProduced
    rw [hzero]
    simp
  · unfold v2Produced
    rw [hzero]
    simp

/-- **C2** (witness).  The amended theorem applied to the spec's own
scenario: one direct reference retitling `v1` from `Old` to `New`; the
second run is change-free and produces neither log nor `_v2` file. -/
theorem C2_reconcile_idempotent_witness :
    (reconcileLoop
        (applyUpdates [⟨pys "v1", pys "Old", []⟩]
          (reconcileLoop [⟨pys "v1", pys "Old", []⟩]
            [.direct (pys "[New](https://youtu.be/v1)") (pys "New") (pys "v1")]).updates)
        [.direct (pys "[New](https://youtu.be/v1)") (pys "New") (pys "v1")]).changes
      = [] ∧
    v2Produced (reconcileLoop
        (applyUpdates [⟨pys "v1", pys "Old", []⟩]
          (reconcileLoop [⟨pys "v1", pys "Old", []⟩]
            [.direct (pys "[New](https://youtu.be/v1)") (pys "New") (pys "v1")]).updates)
        [.direct (pys "[New](https://youtu.be/v1)") (pys "New") (pys "v1")]) = false := by
  have h := C2_reconcile_idempotent [⟨pys "v1", pys "Old", []⟩]
    [.direct (pys "[New](https://youtu.be/v1)") (pys "New") (pys "v1")]
    (by decide) (by decide)
  exact ⟨h.1, h.2.2⟩

/-! ## Upload request preparation (`_prepare_request`, lines 254-279)

`_prepare_request` strips the uploading status prefix from the file name,
takes `os.path.splitext(...)[0]` as the full title, truncates the submitted
title to 100 characters, and embeds the full title in the description
(`f"제목: {full_title}\n\n"` plus the configured default description). -/

/-- `os.path.splitext(name)[0]` for a bare file name: everything before the
last dot — unless every character before that dot is itself a dot, in which
case the name has no extension. -/
def splitextRoot (name : PyStr) : PyStr :=
  let extLen := (name.reverse.takeWhile (fun c => c ≠ '.')).length
  if extLen < name.length then
    let root := name.take (name.length - extLen - 1)
    if root.any (fun c => c ≠ '.') then root else name
  else name

/-- The `snippet` part of the upload request body relevant here. -/
structure RequestSnippet where
  title : PyStr
  descr : PyStr
deriving DecidableEq, Repr

/-- `_prepare_request` (lines 254-279), restricted to the title and
description fields. -/
def prepare_request (uploadingName uploadingPfx : PyStr)
    (defaultDescription : Option PyStr) : RequestSnippet :=
  { title := pyTruncate100 (splitextRoot (uploadingName.drop uploadingPfx.length)),
    descr := pys "제목: " ++ splitextRoot (uploadingName.drop uploadingPfx.length) ++
      pys "\n\n" ++
      (match defaultDescription with | some d => d | none => []) }

/-- **C8** (confirmed).  Every title submitted to the platform — by the
initial upload (`_prepare_request`) and by `update_video` during
reconciliation — is at most 100 characters, is the 100-character
truncation of the source title, and the full untruncated source title is
embedded in the submitted description. -/
theorem C8_title_truncation :
    (∀ (uploadingName uploadingPfx : PyStr) (dd : Option PyStr),
      (prepare_request uploadingName uploadingPfx dd).title.length ≤ 100 ∧
      (prepare_request uploadingName uploadingPfx dd).title
        = pyTruncate100 (splitextRoot (uploadingName.drop uploadingPfx.length)) ∧
      splitextRoot (uploadingName.drop uploadingPfx.length)
        <:+: (prepare_request uploadingName uploadingPfx dd).descr) ∧
    (∀ vid title descr : PyStr,
      (update_video vid title descr).title = pyTruncate100 title ∧
      (update_video vid title descr).title.length ≤ 100) ∧
    (∀ (items : List PItem) (refs : List Ref) (u : UpdateCall),
      u ∈ (reconcileLoop items refs).updates →
      u.title.length ≤ 100 ∧
      ∃ t d0, u.title = pyTruncate100 t ∧ u.descr = updateDescr t d0 ∧
        t <:+: u.descr) := by
  refine ⟨?_, ?_, ?_⟩
  · intro uploadingName uploadingPfx dd
    refine ⟨pyTruncate100_length_le _, rfl, ?_⟩
    exact ⟨pys "제목: ", pys "\n\n" ++
      (match dd with | some d => d | none => []), by simp [prepare_request]⟩
  · intro vid title descr
    exact ⟨rfl, pyTruncate100_length_le _⟩
  · intro items refs u hu
    rcases foldl_updates_from_pairs items refs initLoopState u hu with
      h0 | ⟨vt, _, d0, hud⟩
    · cases h0
    · constructor
      · rw [hud]
        exact pyTruncate100_length_le _
      · refine ⟨vt.2, d0, by rw [hud]; rfl, by rw [hud]; rfl, ?_⟩
        rw [hud]
        exact ⟨pys "제목: ", pys "\n\n로그\n" ++ d0,
          by simp [update_video, updateDescr]⟩

/-- **C8** (witness): concrete instances of all three parts, with the
membership hypothesis of the reconciliation part discharged on a concrete
run. -/
theorem C8_title_truncation_witness :
    (prepare_request (pys "u_movie1.mp4") (pys "u_") none).title.length ≤ 100 ∧
    (update_video (pys "v1") (pys "New") (pys "d")).title = pyTruncate100 (pys "New") ∧
    (update_video (pys "v1") (pys "New") (updateDescr (pys "New") [])).title.length
      ≤ 100 := by
  refine ⟨(C8_title_truncation.1 (pys "u_movie1.mp4") (pys "u_") none).1,
    (C8_title_truncation.2.1 (pys "v1") (pys "New") (pys "d")).1,
    (C8_title_truncation.2.2 [⟨pys "v1", pys "Old", []⟩]
      [.direct (pys "o") (pys "New") (pys "v1")]
      (update_video (pys "v1") (pys "New") (updateDescr (pys "New") []))
      (by decide)).1⟩

/-! ## v2 manifest rewriting (lines 612-624)

```
v2_content = content
for link in youtube_links:
    v2_content = v2_content.replace(link['original'], link['youtube'])
```

`str.replace` replaces every non-overlapping occurrence, scanning left to
right and continuing after each replacement. -/

/-- Python `"".join`-style padding: `s.replace("", y)` inserts `y` before
every character and at the end. -/
def pyReplaceEmptyPad (y : PyStr) : PyStr → PyStr
  | [] => y
  | c :: rest => y ++ c :: pyReplaceEmptyPad y rest

/-- The scan of `str.replace` for a non-empty pattern `o`. -/
def pyReplaceGo (o y : PyStr) (s : PyStr) : PyStr :=
  if h : o ≠ [] ∧ o.isPrefixOf s then
    y ++ pyReplaceGo o y (s.drop o.length)
  else
    match s with
    | [] => []
    | c :: rest => c :: pyReplaceGo o y rest
termination_by s.length
decreasing_by
  · have hlen : o.length ≤ s.length :=
      ( List.isPrefixOf_iff_prefix.mp h.2).length_le
    have hpos : 0 < o.length := List.length_pos.mpr h.1
    simp only [List.length_drop]
    omega
  · simp

/-- Python `s.replace(o, y)`. -/
def pyReplace (s o y : PyStr) : PyStr :=
  if o.isEmpty then pyReplaceEmptyPad y s else pyReplaceGo o y s

theorem pyReplaceGo_nil (o y : PyStr) : pyReplaceGo o y [] = [] := by
  unfold pyReplaceGo
  rw [dif_neg]
  rintro ⟨h1, h2⟩
  exact h1 ( List.prefix_nil.mp ( List.isPrefixOf_iff_prefix.mp h2))

theorem pyReplaceGo_pos (o y s : PyStr) (ho : o ≠ []) (hp : o.isPrefixOf s) :
    pyReplaceGo o y s = y ++ pyReplaceGo o y (s.drop o.length) := by
  conv_lhs => unfold pyReplaceGo
  rw [dif_pos ⟨ho, hp⟩]

theorem pyReplaceGo_cons_neg (o y : PyStr) (c : Char) (rest : PyStr)
    (hp : ¬ o.isPrefixOf (c :: rest)) :
    pyReplaceGo o y (c :: rest) = c :: pyReplaceGo o y rest := by
  conv_lhs => unfold pyReplaceGo
  rw [dif_neg (fun hh => hp hh.2)]

theorem pyReplaceGo_of_not_infix (o y : PyStr) (ho : o ≠ []) :
    ∀ s : PyStr, ¬ o <:+: s → pyReplaceGo o y s = s := by
  intro s
  induction s with
  | nil => intro _; exact pyReplaceGo_nil o y
  | cons c rest ih =>
      intro hn
      rw [pyReplaceGo_cons_neg o y c rest (fun hp =>
        hn ( List.isPrefixOf_iff_prefix.mp hp).isInfix)]
      rw [ih (fun hi => hn ( List.infix_cons hi))]

theorem prefix_into_dropLast {o X B : PyStr} (hpre : o <+: X ++ B)
    (hlen : o.length + 1 ≤ X.length) : o <:+: X.dropLast := by
  have h1 : o <+: X :=
    List.prefix_of_prefix_length_le hpre ( List.prefix_append X B) (by omega)
  have h2 : o <+: X.take (X.length - 1) :=
    List.prefix_take_iff.mpr ⟨h1, by omega⟩
  rw [List.dropLast_eq_take]
  exact h2.isInfix

/-- When `o` occurs at a designated position and nowhere earlier (not even
overlapping into the designated occurrence from the left), the scan rewrites
that occurrence and continues on the rest of the text — the tail may hold
further occurrences. -/
theorem pyReplaceGo_leftmost (o y : PyStr) (ho : o ≠ []) :
    ∀ (A B : PyStr), ¬ o <:+: (A ++ o).dropLast →
      pyReplaceGo o y (A ++ o ++ B) = A ++ y ++ pyReplaceGo o y B := by
  intro A
  induction A with
  | nil =>
      intro B _
      have hp : o.isPrefixOf (o ++ B) :=
        List.isPrefixOf_iff_prefix.mpr ( List.prefix_append o B)
      rw [List.nil_append, pyReplaceGo_pos o y _ ho hp, List.drop_left,
        List.nil_append]
  | cons a A ih =>
      intro B hA
      have hne : A ++ o ≠ [] := by
        intro h
        exact ho (List.append_eq_nil.mp h).2
      have hnp : ¬ o.isPrefixOf (a :: (A ++ o ++ B)) := by
        intro hp
        apply hA
        have hpre : o <+: ((a :: A) ++ o) ++ B := by
          have h := List.isPrefixOf_iff_prefix.mp hp
          simpa using h
        refine prefix_into_dropLast hpre ?_
        have hpos : 0 < o.length := List.length_pos.mpr ho
        simp only [List.length_append, List.length_cons]
        omega
      have hA' : ¬ o <:+: (A ++ o).dropLast := by
        intro hi
        apply hA
        have hd : ((a :: A) ++ o).dropLast = a :: (A ++ o).dropLast := by
          rw [List.cons_append, List.dropLast_cons_of_ne_nil hne]
        rw [hd]
        exact List.infix_cons hi
      calc pyReplaceGo o y ((a :: A) ++ o ++ B)
          = a :: pyReplaceGo o y (A ++ o ++ B) := by
            have h := pyReplaceGo_cons_neg o y a (A ++ o ++ B) hnp
            simpa using h
        _ = a :: (A ++ y ++ pyReplaceGo o y B) := by rw [ih B hA']
        _ = (a :: A) ++ y ++ pyReplaceGo o y B := by simp

/-- A prefix of `U ++ R` that is longer than the non-empty `U` already fits
inside `U` extended by the first `|o| - 1` characters of `R`. -/
theorem prefix_take_window (o U R : PyStr) (hU : U ≠ []) (h : o <+: U ++ R) :
    o <+: U ++ R.take (o.length - 1) := by
  by_cases hle : o.length ≤ U.length
  · have h1 : o <+: U :=
      List.prefix_of_prefix_length_le h ( List.prefix_append U R) hle
    exact h1.trans ( List.prefix_append U _)
  · push_neg at hle
    have hUpos : 0 < U.length := List.length_pos.mpr hU
    obtain ⟨t, ht⟩ := h
    have htake : o = (U ++ R).take o.length := by
      rw [← ht]
      exact (List.take_left o t).symm
    have hsplit : (U ++ R).take o.length = U ++ R.take (o.length - U.length) := by
      rw [List.take_append_eq_append_take, List.take_of_length_le (le_of_lt hle)]
    have hmono : R.take (o.length - U.length) <+: R.take (o.length - 1) := by
      have hmin : (R.take (o.length - 1)).take (o.length - U.length)
          = R.take (o.length - U.length) := by
        rw [List.take_take, Nat.min_eq_left (by omega)]
      rw [← hmin]
      exact List.take_prefix _ _
    calc o = U ++ R.take (o.length - U.length) := htake.trans hsplit
      _ <+: U ++ R.take (o.length - 1) :=
          ( List.prefix_append_right_inj U).mpr hmono

/-- When no occurrence of `o` starts within `X` (checked with a lookahead of
`|o| - 1` characters into `R`), the scan passes over `X` untouched and
continues on `R`. -/
theorem pyReplaceGo_skip (o y : PyStr) (ho : o ≠ []) :
    ∀ (X R : PyStr), ¬ o <:+: X ++ R.take (o.length - 1) →
      pyReplaceGo o y (X ++ R) = X ++ pyReplaceGo o y R := by
  intro X
  induction X with
  | nil => intro R _; simp
  | cons c X ih =>
      intro R h
      have hnp : ¬ o.isPrefixOf (c :: (X ++ R)) := by
        intro hp
        apply h
        have hpre : o <+: (c :: X) ++ R := by
          have hh := List.isPrefixOf_iff_prefix.mp hp
          simpa using hh
        have hw := prefix_take_window o (c :: X) R (by simp) hpre
        exact hw.isInfix
      have h' : ¬ o <:+: X ++ R.take (o.length - 1) := by
        intro hi
        apply h
        have hcons : o <:+: c :: (X ++ R.take (o.length - 1)) :=
          List.infix_cons hi
        simpa using hcons
      calc pyReplaceGo o y ((c :: X) ++ R)
          = c :: pyReplaceGo o y (X ++ R) := by
            have hh := pyReplaceGo_cons_neg o y c (X ++ R) hnp
            simpa using hh
        _ = c :: (X ++ pyReplaceGo o y R) := by rw [ih R h']
        _ = (c :: X) ++ pyReplaceGo o y R := by simp

/-- Replacing a pattern by itself is a no-op (`s.replace(o, o) == s`). -/
theorem pyReplaceGo_self (o : PyStr) (ho : o ≠ []) :
    ∀ s : PyStr, pyReplaceGo o o s = s := by
  have key : ∀ n, ∀ s : PyStr, s.length ≤ n → pyReplaceGo o o s = s := by
    intro n
    induction n with
    | zero =>
        intro s hs
        have hnil : s = [] := List.length_eq_zero.mp (Nat.le_zero.mp hs)
        rw [hnil]
        exact pyReplaceGo_nil o o
    | succ m ih =>
        intro s hs
        by_cases hp : o.isPrefixOf s
        · obtain ⟨t, ht⟩ := List.isPrefixOf_iff_prefix.mp hp
          subst ht
          rw [pyReplaceGo_pos o o _ ho hp, List.drop_left o t]
          congr 1
          apply ih
          have hpos : 0 < o.length := List.length_pos.mpr ho
          simp only [List.length_append] at hs
          omega
        · cases s with
          | nil => exact pyReplaceGo_nil o o
          | cons c rest =>
              rw [pyReplaceGo_cons_neg o o c rest hp]
              congr 1
              apply ih
              simp only [List.length_cons] at hs
              omega
  exact fun s => key s.length s le_rfl

theorem pyReplaceEmptyPad_nilRepl : ∀ s : PyStr, pyReplaceEmptyPad [] s = s := by
  intro s
  induction s with
  | nil => rfl
  | cons c rest ih => simp [pyReplaceEmptyPad, ih]

theorem pyReplace_self (c o : PyStr) : pyReplace c o o = c := by
  unfold pyReplace
  by_cases ho : o.isEmpty = true
  · rw [if_pos ho]
    have hnil : o = [] := by
      cases o with
      | nil => rfl
      | cons a b => simp [List.isEmpty] at ho
    rw [hnil]
    exact pyReplaceEmptyPad_nilRepl c
  · rw [if_neg ho]
    refine pyReplaceGo_self o ?_ c
    intro h
    apply ho
    rw [h]
    rfl

/-- The v2 rewrite loop of lines 616-618: start from the manifest text and
apply one global `str.replace` per recorded link, in order. -/
def v2Rewrite (content : PyStr) (links : List (PyStr × PyStr)) : PyStr :=
  links.foldl (fun c l => pyReplace c l.1 l.2) content

/-- A manifest decomposed around its matched substrings: triples
`(segment, matchedSubstring, canonicalDirectLink)` plus the trailing
segment.  `chainOrig` is the original document text. -/
def chainOrig : List (PyStr × PyStr × PyStr) → PyStr → PyStr
  | [], tail => tail
  | (s, o, _) :: rest, tail => s ++ o ++ chainOrig rest tail

/-- The same decomposition with every matched substring replaced by its
canonical form. -/
def chainRepl : List (PyStr × PyStr × PyStr) → PyStr → PyStr
  | [], tail => tail
  | (s, _, y) :: rest, tail => s ++ y ++ chainRepl rest tail

/-- A block decomposition of the document: pairs `(segment, block)` plus a
trailing segment.  Initially every block is a matched substring; a rewrite
turns a block into its replaced form. -/
def flattenBlocks : List (PyStr × PyStr) → PyStr → PyStr
  | [], tl => tl
  | b :: rest, tl => b.1 ++ b.2 ++ flattenBlocks rest tl

theorem flattenBlocks_cons (b : PyStr × PyStr) (rest : List (PyStr × PyStr))
    (tl : PyStr) :
    flattenBlocks (b :: rest) tl = b.1 ++ b.2 ++ flattenBlocks rest tl := rfl

/-- The blockwise effect of one global replace: a block ending in the
pattern has that final occurrence rewritten; other blocks are untouched. -/
def replOne (g y w : PyStr) : PyStr :=
  if g.isSuffixOf w = true then w.take (w.length - g.length) ++ y else w

def replBlocks (g y : PyStr) (bs : List (PyStr × PyStr)) :
    List (PyStr × PyStr) :=
  bs.map (fun b => (b.1, replOne g y b.2))

/-- Occurrence-structure conditions under which one global replace of `g`
acts blockwise: in every block that ends in `g`, that final occurrence is the
only one reaching into the segment-plus-block; in every other block region no
occurrence of `g` even starts (checked with a `|g| - 1` lookahead); and `g`
does not occur in the trailing segment. -/
def blocksOK (g : PyStr) : List (PyStr × PyStr) → PyStr → Bool
  | [], tl => !(decide (g <:+: tl))
  | b :: rest, tl =>
      (if g.isSuffixOf b.2 = true then
         !(decide (g <:+: (b.1 ++ b.2).dropLast))
       else
         !(decide (g <:+: b.1 ++ b.2
             ++ (flattenBlocks rest tl).take (g.length - 1))))
      && blocksOK g rest tl

/-- One global replace equals the blockwise surgical rewrite under the
occurrence-structure conditions. -/
theorem pyReplaceGo_blocks (g y : PyStr) (hg : g ≠ []) :
    ∀ (bs : List (PyStr × PyStr)) (tl : PyStr), blocksOK g bs tl = true →
      pyReplaceGo g y (flattenBlocks bs tl)
        = flattenBlocks (replBlocks g y bs) tl := by
  intro bs
  induction bs with
  | nil =>
      intro tl hok
      simp only [blocksOK, Bool.not_eq_true', decide_eq_false_iff_not] at hok
      exact pyReplaceGo_of_not_infix g y hg tl hok
  | cons b rest ih =>
      obtain ⟨s, w⟩ := b
      intro tl hok
      simp only [blocksOK, Bool.and_eq_true] at hok
      obtain ⟨h1, h2⟩ := hok
      by_cases hsuf : g.isSuffixOf w = true
      · rw [if_pos hsuf] at h1
        simp only [Bool.not_eq_true', decide_eq_false_iff_not] at h1
        obtain ⟨p, hw⟩ := List.isSuffixOf_iff_suffix.mp hsuf
        have hflat : flattenBlocks ((s, w) :: rest) tl
            = (s ++ p) ++ g ++ flattenBlocks rest tl := by
          rw [flattenBlocks_cons, ← hw]
          simp [List.append_assoc]
        have hcond : ¬ g <:+: ((s ++ p) ++ g).dropLast := by
          have hsw : (s ++ p) ++ g = s ++ w := by
            rw [← hw, List.append_assoc]
          rw [hsw]
          exact h1
        rw [hflat,
          pyReplaceGo_leftmost g y hg (s ++ p) (flattenBlocks rest tl) hcond,
          ih tl h2]
        have hrepl : replOne g y w = p ++ y := by
          unfold replOne
          rw [if_pos hsuf, ← hw, List.length_append, Nat.add_sub_cancel,
            List.take_left]
        rw [show replBlocks g y ((s, w) :: rest)
              = (s, replOne g y w) :: replBlocks g y rest from rfl,
          flattenBlocks_cons, hrepl]
        simp [List.append_assoc]
      · rw [if_neg hsuf] at h1
        simp only [Bool.not_eq_true', decide_eq_false_iff_not] at h1
        have hcond : ¬ g <:+: (s ++ w)
            ++ (flattenBlocks rest tl).take (g.length - 1) := by
          intro hi
          apply h1
          simpa [List.append_assoc] using hi
        rw [flattenBlocks_cons,
          pyReplaceGo_skip g y hg (s ++ w) (flattenBlocks rest tl) hcond,
          ih tl h2]
        have hrepl : replOne g y w = w := by
          unfold replOne
          rw [if_neg hsuf]
        rw [show replBlocks g y ((s, w) :: rest)
              = (s, replOne g y w) :: replBlocks g y rest from rfl,
          flattenBlocks_cons, hrepl]

/-- Running the blockwise rewrites of all recorded links, in order. -/
def chainRun (bs : List (PyStr × PyStr)) (links : List (PyStr × PyStr)) :
    List (PyStr × PyStr) :=
  links.foldl (fun b l => replBlocks l.1 l.2 b) bs

/-- The occurrence-structure conditions hold at every step of the chain of
global replaces, each taken on the document as left by the previous ones. -/
def chainOK : List (PyStr × PyStr) → List (PyStr × PyStr) → PyStr → Bool
  | _, [], _ => true
  | bs, l :: ls, tl =>
      !l.1.isEmpty && blocksOK l.1 bs tl
        && chainOK (replBlocks l.1 l.2 bs) ls tl

/-- The whole fold of global replaces acts blockwise under `chainOK`. -/
theorem v2Rewrite_blocks :
    ∀ (links bs : List (PyStr × PyStr)) (tl : PyStr),
      chainOK bs links tl = true →
      v2Rewrite (flattenBlocks bs tl) links
        = flattenBlocks (chainRun bs links) tl := by
  intro links
  induction links with
  | nil => intro bs tl _; rfl
  | cons l ls ih =>
      intro bs tl hok
      simp only [chainOK, Bool.and_eq_true, Bool.not_eq_true'] at hok
      obtain ⟨⟨hg, hbl⟩, hrest⟩ := hok
      have hgne : l.1 ≠ [] := by
        intro h
        rw [h] at hg
        simp at hg
      have hstep : pyReplace (flattenBlocks bs tl) l.1 l.2
          = flattenBlocks (replBlocks l.1 l.2 bs) tl := by
        unfold pyReplace
        rw [if_neg (by simp [hg])]
        exact pyReplaceGo_blocks l.1 l.2 hgne bs tl hbl
      calc v2Rewrite (flattenBlocks bs tl) (l :: ls)
          = v2Rewrite (pyReplace (flattenBlocks bs tl) l.1 l.2) ls := rfl
        _ = v2Rewrite (flattenBlocks (replBlocks l.1 l.2 bs) tl) ls := by
            rw [hstep]
        _ = flattenBlocks (chainRun (replBlocks l.1 l.2 bs) ls) tl :=
            ih _ tl hrest
        _ = flattenBlocks (chainRun bs (l :: ls)) tl := rfl

/-- Identity replaces (`s.replace(o, o)`, the direct-link entries) are
no-ops, so they can be dropped from the link list. -/
theorem v2Rewrite_dropIdent :
    ∀ (links : List (PyStr × PyStr)) (c : PyStr),
      v2Rewrite c links
        = v2Rewrite c (links.filter (fun l => !(l.1 == l.2))) := by
  intro links
  induction links with
  | nil => intro c; rfl
  | cons l ls ih =>
      intro c
      by_cases hl : l.1 = l.2
      · have hb : (l.1 == l.2) = true := beq_iff_eq.mpr hl
        have hfilter : (l :: ls).filter (fun l => !(l.1 == l.2))
            = ls.filter (fun l => !(l.1 == l.2)) := by
          simp [List.filter_cons, hb]
        have hrepl : pyReplace c l.1 l.2 = c := by
          rw [← hl]
          exact pyReplace_self c l.1
        calc v2Rewrite c (l :: ls)
            = v2Rewrite (pyReplace c l.1 l.2) ls := rfl
          _ = v2Rewrite c ls := by rw [hrepl]
          _ = v2Rewrite c (ls.filter (fun l => !(l.1 == l.2))) := ih c
          _ = v2Rewrite c ((l :: ls).filter (fun l => !(l.1 == l.2))) := by
              rw [hfilter]
      · have hb : (l.1 == l.2) = false := beq_eq_false_iff_ne.mpr hl
        have hfilter : (l :: ls).filter (fun l => !(l.1 == l.2))
            = l :: ls.filter (fun l => !(l.1 == l.2)) := by
          simp [List.filter_cons, hb]
        rw [hfilter]
        calc v2Rewrite c (l :: ls)
            = v2Rewrite (pyReplace c l.1 l.2) ls := rfl
          _ = v2Rewrite (pyReplace c l.1 l.2)
                (ls.filter (fun l => !(l.1 == l.2))) := ih _
          _ = v2Rewrite c
                (l :: ls.filter (fun l => !(l.1 == l.2))) := rfl

theorem chainOrig_flatten :
    ∀ (trips : List (PyStr × PyStr × PyStr)) (tail : PyStr),
      chainOrig trips tail
        = flattenBlocks (trips.map (fun t => (t.1, t.2.1))) tail := by
  intro trips
  induction trips with
  | nil => intro tail; rfl
  | cons t rest ih =>
      intro tail
      obtain ⟨s, o, y⟩ := t
      calc chainOrig ((s, o, y) :: rest) tail
          = s ++ o ++ chainOrig rest tail := rfl
        _ = s ++ o ++ flattenBlocks (rest.map (fun t => (t.1, t.2.1))) tail := by
            rw [ih]
        _ = flattenBlocks (((s, o, y) :: rest).map (fun t => (t.1, t.2.1)))
              tail := rfl

theorem chainRepl_flatten :
    ∀ (trips : List (PyStr × PyStr × PyStr)) (tail : PyStr),
      chainRepl trips tail
        = flattenBlocks (trips.map (fun t => (t.1, t.2.2))) tail := by
  intro trips
  induction trips with
  | nil => intro tail; rfl
  | cons t rest ih =>
      intro tail
      obtain ⟨s, o, y⟩ := t
      calc chainRepl ((s, o, y) :: rest) tail
          = s ++ y ++ chainRepl rest tail := rfl
        _ = s ++ y ++ flattenBlocks (rest.map (fun t => (t.1, t.2.2))) tail := by
            rw [ih]
        _ = flattenBlocks (((s, o, y) :: rest).map (fun t => (t.1, t.2.2)))
              tail := rfl

/-- **C9** (confirmed).  The v2 rewrite applies one global `str.replace` per
recorded link, in recording order (lines 616-618).  When the manifest
decomposes into segments around the matched reference substrings and the
successive global replaces act blockwise on that decomposition (`chainOK`:
each pattern is non-empty, and at each step every occurrence of it in the
current document lies at the end of a block), the result is the manifest with
each matched substring replaced by its canonical direct-link form and every
byte outside the matched substrings preserved exactly; identity replaces —
the direct-link entries, whose recorded form equals their canonical form —
are dropped first as proven no-ops.  The conditions tolerate the aliasing
that global `str.replace` introduces: a reference recorded twice satisfies
them (its first replace rewrites every copy and the second finds nothing
left), as does a matched substring nested as a suffix of a longer match (that
embedded copy is rewritten in place, which turns the host block into exactly
its own canonical form).  Both aliasing scenarios are exercised in the
witness. -/
theorem C9_v2_rewrite_frame (items : List PItem) (refs : List Ref)
    (trips : List (PyStr × PyStr × PyStr)) (tail content : PyStr)
    (hcontent : content = chainOrig trips tail)
    (hlinks : ((reconcileLoop items refs).links).filter
        (fun l => !(l.1 == l.2)) = trips.map (fun t => (t.2.1, t.2.2)))
    (hok : chainOK (trips.map (fun t => (t.1, t.2.1)))
        (trips.map (fun t => (t.2.1, t.2.2))) tail = true)
    (hfinal : chainRun (trips.map (fun t => (t.1, t.2.1)))
        (trips.map (fun t => (t.2.1, t.2.2)))
      = trips.map (fun t => (t.1, t.2.2))) :
    v2Rewrite content (reconcileLoop items refs).links
      = chainRepl trips tail := by
  rw [v2Rewrite_dropIdent ((reconcileLoop items refs).links) content, hlinks,
    hcontent, chainOrig_flatten trips tail,
    v2Rewrite_blocks (trips.map (fun t => (t.2.1, t.2.2)))
      (trips.map (fun t => (t.1, t.2.1))) tail hok,
    hfinal]
  exact (chainRepl_flatten trips tail).symm

/-- **C9** (witness): the two aliasing scenarios of global `str.replace`.
First, the same positional reference recorded twice: its first global replace
rewrites both copies and the second replace is a no-op, leaving exactly the
canonical rewrite with all other bytes intact.  Second, a reference whose
matched text recurs as a suffix of a longer match (`[I](...)` inside
`[x[I](...)`, the title of the longer match containing an unbracketed `[`):
the embedded copy is rewritten in place, which is exactly the longer match's
own canonical form, and the later replace for the longer match finds nothing
left to do. -/
theorem C9_v2_rewrite_frame_witness :
    v2Rewrite (pys "A [I](https://goto.slog.gg/youtube/x/1) B [I](https://goto.slog.gg/youtube/x/1) C")
        (reconcileLoop [⟨pys "v1", pys "Old", []⟩]
          [.positional (pys "[I](https://goto.slog.gg/youtube/x/1)") (pys "I") 1,
           .positional (pys "[I](https://goto.slog.gg/youtube/x/1)") (pys "I") 1]).links
      = pys "A [I](https://youtu.be/v1) B [I](https://youtu.be/v1) C"
    ∧ v2Rewrite (pys "[I](https://goto.slog.gg/youtube/x/1) [x[I](https://goto.slog.gg/youtube/x/1)")
        (reconcileLoop [⟨pys "v1", pys "Old", []⟩]
          [.positional (pys "[I](https://goto.slog.gg/youtube/x/1)") (pys "I") 1,
           .positional (pys "[x[I](https://goto.slog.gg/youtube/x/1)") (pys "x[I") 1]).links
      = pys "[I](https://youtu.be/v1) [x[I](https://youtu.be/v1)" := by
  constructor
  · have h := C9_v2_rewrite_frame
      [⟨pys "v1", pys "Old", []⟩]
      [.positional (pys "[I](https://goto.slog.gg/youtube/x/1)") (pys "I") 1,
       .positional (pys "[I](https://goto.slog.gg/youtube/x/1)") (pys "I") 1]
      [(pys "A ", pys "[I](https://goto.slog.gg/youtube/x/1)",
        pys "[I](https://youtu.be/v1)"),
       (pys " B ", pys "[I](https://goto.slog.gg/youtube/x/1)",
        pys "[I](https://youtu.be/v1)")]
      (pys " C")
      (pys "A [I](https://goto.slog.gg/youtube/x/1) B [I](https://goto.slog.gg/youtube/x/1) C")
      (by decide) (by decide) (by decide) (by decide)
    exact h.trans (by decide)
  · have h := C9_v2_rewrite_frame
      [⟨pys "v1", pys "Old", []⟩]
      [.positional (pys "[I](https://goto.slog.gg/youtube/x/1)") (pys "I") 1,
       .positional (pys "[x[I](https://goto.slog.gg/youtube/x/1)") (pys "x[I") 1]
      [(pys "", pys "[I](https://goto.slog.gg/youtube/x/1)",
        pys "[I](https://youtu.be/v1)"),
       (pys " ", pys "[x[I](https://goto.slog.gg/youtube/x/1)",
        pys "[x[I](https://youtu.be/v1)")]
      (pys "")
      (pys "[I](https://goto.slog.gg/youtube/x/1) [x[I](https://goto.slog.gg/youtube/x/1)")
      (by decide) (by decide) (by decide) (by decide)
    exact h.trans (by decide)

/-! ## File lifecycle (`FileManager`, `VideoProcessor.process_video`, `main`) -/

/-- A scanned pending file (`VideoFile`, lines 36-44): the recorded path at
scan time and the name with the pending prefix stripped
(`f.name[len(prefix):]`, line 159). -/
structure VideoFile where
  path : PyStr
  original_name : PyStr
deriving DecidableEq, Repr

/-- Name-based eligibility of one directory entry in `get_pending_videos`
(lines 140-161): keep names starting with the pending prefix whose
extension is `.mp4` or `.md`, and record the full path and the stripped
original name.  (The 30-second modification-time debounce involves
wall-clock time and is not modelled.) -/
def scanEntry (pfx uploadFolder fname : PyStr) : Option VideoFile :=
  if pfx.isPrefixOf fname &&
      ((pys ".mp4").isSuffixOf fname || (pys ".md").isSuffixOf fname) then
    some ⟨uploadFolder ++ pys "/" ++ fname, fname.drop pfx.length⟩
  else none

/-- `prepare_upload` (lines 104-109): the uploading-state path,
`upload_folder / (uploading_prefix + original_name)`. -/
def prepare_upload_path (uploadingPfx uploadFolder : PyStr) (v : VideoFile) :
    PyStr :=
  uploadFolder ++ pys "/" ++ (uploadingPfx ++ v.original_name)

/-- The failure restore actually used by the pipeline (line 431):
`uploading_path.rename(video.path)` — back to the recorded pre-scan path. -/
def pipelineRestore (v : VideoFile) : PyStr := v.path

/-- `restore_original` (lines 128-133): would rename to a reconstructed
generic pending name `upload_folder / (prefix + original_name)`.  Defined
in the source but called from nowhere. -/
def restore_original_path (pfx uploadFolder : PyStr) (v : VideoFile) : PyStr :=
  uploadFolder ++ pys "/" ++ (pfx ++ v.original_name)

/-- **C7** (confirmed).  For every file the scan accepts, the rename to the
Uploading name followed by the failure restore puts the file back at its
original pending path, whose name again is `prefix ++ original_name`, and a
re-scan of that name yields the same pending file. -/
theorem C7_restore_roundtrip (pfx uploadFolder fname : PyStr)
    (v : VideoFile) (hscan : scanEntry pfx uploadFolder fname = some v) :
    pfx ++ v.original_name = fname ∧
    pipelineRestore v = uploadFolder ++ pys "/" ++ (pfx ++ v.original_name) ∧
    scanEntry pfx uploadFolder (pfx ++ v.original_name) = some v := by
  unfold scanEntry at hscan
  by_cases hcond : (pfx.isPrefixOf fname &&
      ((pys ".mp4").isSuffixOf fname || (pys ".md").isSuffixOf fname)) = true
  · rw [if_pos hcond] at hscan
    have hv : v = ⟨uploadFolder ++ pys "/" ++ fname, fname.drop pfx.length⟩ :=
      (Option.some_inj.mp hscan).symm
    have hpre : pfx <+: fname :=
      List.isPrefixOf_iff_prefix.mp (Bool.and_elim_left hcond)
    obtain ⟨t, rfl⟩ := hpre
    have hdrop : (pfx ++ t).drop pfx.length = t := List.drop_left pfx t
    refine ⟨?_, ?_, ?_⟩
    · rw [hv]
      simp [hdrop]
    · rw [hv]
      unfold pipelineRestore
      simp [hdrop]
    · rw [hv]
      unfold scanEntry
      simp only [hdrop]
      rw [if_pos hcond]
  · rw [if_neg hcond] at hscan
    cases hscan

/-- **C7** (witness): the spec's scenario file `r_movie1.mp4` with prefix
`r_`: after the uploading rename and the failure restore it is again
`r_movie1.mp4` and is re-scanned as the same pending file. -/
theorem C7_restore_roundtrip_witness :
    pys "r_" ++ pys "movie1.mp4" = pys "r_movie1.mp4" ∧
    pipelineRestore ⟨pys "upload/r_movie1.mp4", pys "movie1.mp4"⟩
      = pys "upload" ++ pys "/" ++ (pys "r_" ++ pys "movie1.mp4") ∧
    scanEntry (pys "r_") (pys "upload") (pys "r_" ++ pys "movie1.mp4")
      = some ⟨pys "upload/r_movie1.mp4", pys "movie1.mp4"⟩ := by
  have h := C7_restore_roundtrip (pys "r_") (pys "upload") (pys "r_movie1.mp4")
    ⟨pys "upload/r_movie1.mp4", pys "movie1.mp4"⟩ (by decide)
  exact ⟨by decide, by
    have h2 := h.2.1
    simpa using h2, by
    have h3 := h.2.2
    simpa using h3⟩

/-- A filesystem/API operation performed by `process_video`. -/
inductive FsOp where
  | rename (src dst : PyStr)
  | upload (path : PyStr)
  | writeLog
deriving DecidableEq, Repr

/-- The operations of `process_video` (lines 409-432) on a video (`.mp4`)
file: rename to the uploading path, upload, write the log, rename to the
done target — or, when the upload raises after the first rename, the
`except` block's restore `uploading_path.rename(video.path)`. -/
def process_video_ops (uploadingPfx uploadFolder : PyStr) (v : VideoFile)
    (uploadFails : Bool) (doneTarget : PyStr) : List FsOp :=
  let up := prepare_upload_path uploadingPfx uploadFolder v
  if uploadFails then
    [.rename v.path up, .rename up v.path]
  else
    [.rename v.path up, .upload up, .writeLog, .rename up doneTarget]

/-- **C10** (confirmed).  On every per-file failure after the rename to the
Uploading name, the pipeline's last operation renames the uploading path
back to exactly the recorded `PendingFile` path (`video.path`); the
prefix-reconstructing alternative `restore_original` is never part of the
trace — shown at a file whose recorded path differs from the
reconstruction, where the trace contains the recorded-path restore and not
the `restore_original` one. -/
theorem C10_pipeline_restore_target :
    (∀ (uploadingPfx uploadFolder doneTarget : PyStr) (v : VideoFile),
      process_video_ops uploadingPfx uploadFolder v true doneTarget
        = [.rename v.path (prepare_upload_path uploadingPfx uploadFolder v),
           .rename (prepare_upload_path uploadingPfx uploadFolder v)
             (pipelineRestore v)] ∧
      (process_video_ops uploadingPfx uploadFolder v true doneTarget).getLast?
        = some (.rename (prepare_upload_path uploadingPfx uploadFolder v)
            (pipelineRestore v))) ∧
    (FsOp.rename
        (prepare_upload_path (pys "u_") (pys "upload")
          ⟨pys "elsewhere/r_a.mp4", pys "a.mp4"⟩)
        (restore_original_path (pys "r_") (pys "upload")
          ⟨pys "elsewhere/r_a.mp4", pys "a.mp4"⟩)
      ∉ process_video_ops (pys "u_") (pys "upload")
          ⟨pys "elsewhere/r_a.mp4", pys "a.mp4"⟩ true (pys "d")) ∧
    restore_original_path (pys "r_") (pys "upload")
        ⟨pys "elsewhere/r_a.mp4", pys "a.mp4"⟩
      ≠ pipelineRestore ⟨pys "elsewhere/r_a.mp4", pys "a.mp4"⟩ := by
  refine ⟨?_, by decide, by decide⟩
  intro uploadingPfx uploadFolder doneTarget v
  exact ⟨rfl, rfl⟩

/-! ## The scan pass (`main`, lines 658-677)

`main` runs `for video in processor.get_pending_videos():
processor.process_video(video)` inside a `try`.  `process_video` restores
the failing file (line 431) and then *re-raises* (line 432), which tears
down the `for` loop; the enclosing `except` logs, sleeps and keeps the
outer `while` alive.  `fails f = true` models "processing file `f`
raises". -/

/-- Result of one scan pass: the files fully processed, the file restored
by the failure handler (if any), and the files the aborted pass never
reached. -/
structure PassResult (α : Type) where
  processed : List α
  restored : Option α
  unprocessed : List α
deriving DecidableEq, Repr

/-- One scan pass over the sorted pending files. -/
def runPass {α : Type} (fails : α → Bool) : List α → PassResult α
  | [] => ⟨[], none, []⟩
  | f :: rest =>
      if fails f then ⟨[], some f, rest⟩
      else
        let r := runPass fails rest
        ⟨f :: r.processed, r.restored, r.unprocessed⟩

/-- **C3** (counterexample).  With two pending files where processing of
the first raises: the first file is restored, but the second — which would
succeed — is *not* processed in that pass; the re-raise aborts the `for`
loop. -/
theorem C3_pass_abort_counterexample :
    (runPass (fun n => n == 1) [1, 2]).restored = some 1 ∧
    (runPass (fun n => n == 1) [1, 2]).processed = [] ∧
    ((fun (n : Nat) => n == 1) 2) = false ∧
    2 ∉ (runPass (fun n => n == 1) [1, 2]).processed ∧
    2 ∈ (runPass (fun n => n == 1) [1, 2]).unprocessed := by
  decide

/-- **C3** (amended).  Within one scan pass, the files before the first
failing file are processed; the first failing file is restored; every file
after it is left unprocessed in that pass (the re-raised exception aborts
the `for` loop, and the outer loop only retries on the *next* scan). -/
theorem C3_pass_isolation {α : Type} (fails : α → Bool) (files : List α) :
    runPass fails files =
      ⟨files.takeWhile (fun f => !fails f),
       (files.dropWhile (fun f => !fails f)).head?,
       (files.dropWhile (fun f => !fails f)).tail⟩ := by
  induction files with
  | nil => rfl
  | cons f rest ih =>
      by_cases h : fails f = true
      · simp [runPass, h]
      · have h' : fails f = false := by simpa using h
        simp [runPass, h', ih]

/-! ## Markdown (manifest) handling (`_handle_markdown`, lines 494-529)

`process_video` renames the manifest to the uploading name (line 417) and
calls `_handle_markdown` on the *uploading* path.  `_handle_markdown` first
runs `_update_playlist_videos(uploading_path, ...)` when the file's group
has an enabled playlist (lines 501-508), and only afterwards renames the
file to its timestamped done name (lines 514-525).  If reconciliation
raises, `_handle_markdown` re-raises (line 529) and `process_video`'s
handler renames the uploading path back to the pending path (line 431). -/

/-- An event in the life of one manifest file. -/
inductive MdEvent where
  | toUploading (name : PyStr)
  | reconcileRun (fileName : PyStr)
  | doneMove (name : PyStr)
  | restorePending (name : PyStr)
deriving DecidableEq, Repr

/-- The markdown done name of lines 516-519: done prefix + stem +
timestamp + extension. -/
def mdDoneName (donePfx origName timestamp : PyStr) : PyStr :=
  donePfx ++ splitextRoot origName ++ timestamp ++
    (origName.drop (splitextRoot origName).length)

/-- Event trace of `process_video` on a `.md` file. -/
def processMarkdownTrace (pfx uploadingPfx donePfx origName timestamp : PyStr)
    (playlistEnabled reconcileFails : Bool) : List MdEvent :=
  [.toUploading (uploadingPfx ++ origName)] ++
    (if playlistEnabled then
      [.reconcileRun (uploadingPfx ++ origName)] ++
        (if reconcileFails then [.restorePending (pfx ++ origName)]
         else [.doneMove (mdDoneName donePfx origName timestamp)])
     else [.doneMove (mdDoneName donePfx origName timestamp)])

/-- **C4** (counterexample).  For a manifest with an enabled playlist
group, reconciliation runs *before* the Done rename — on the file still
bearing the uploading name — and a reconciliation failure prevents the
Done transition entirely: the trace ends with the file restored to its
pending name and contains no Done event. -/
theorem C4_done_precedes_reconcile_counterexample :
    processMarkdownTrace (pys "r_") (pys "u_") (pys "d_") (pys "p_13900.md")
        (pys "___2025_01_01__00_00_00") true false
      = [.toUploading (pys "u_p_13900.md"),
         .reconcileRun (pys "u_p_13900.md"),
         .doneMove (pys "d_p_13900___2025_01_01__00_00_00.md")] ∧
    (processMarkdownTrace (pys "r_") (pys "u_") (pys "d_") (pys "p_13900.md")
        (pys "___2025_01_01__00_00_00") true false).indexOf
        (.reconcileRun (pys "u_p_13900.md"))
      < (processMarkdownTrace (pys "r_") (pys "u_") (pys "d_") (pys "p_13900.md")
          (pys "___2025_01_01__00_00_00") true false).indexOf
          (.doneMove (pys "d_p_13900___2025_01_01__00_00_00.md")) ∧
    processMarkdownTrace (pys "r_") (pys "u_") (pys "d_") (pys "p_13900.md")
        (pys "___2025_01_01__00_00_00") true true
      = [.toUploading (pys "u_p_13900.md"),
         .reconcileRun (pys "u_p_13900.md"),
         .restorePending (pys "r_p_13900.md")] ∧
    (MdEvent.doneMove (pys "d_p_13900___2025_01_01__00_00_00.md")
      ∉ processMarkdownTrace (pys "r_") (pys "u_") (pys "d_") (pys "p_13900.md")
          (pys "___2025_01_01__00_00_00") true true) := by
  refine ⟨by decide, by decide, by decide, by decide⟩

/-- **C4** (amended).  For every manifest whose group has an enabled
playlist: the first two events are the rename to the Uploading name and
the reconciliation run on the *uploading*-named file, so reconciliation
always precedes the Done rename; on reconciliation failure the Done rename
never happens and the trace ends with the restore to the pending name; on
success the Done rename is the last event, after reconciliation. -/
theorem C4_reconcile_before_done (pfx uploadingPfx donePfx origName ts : PyStr)
    (reconcileFails : Bool) :
    (processMarkdownTrace pfx uploadingPfx donePfx origName ts true
        reconcileFails).take 2
      = [.toUploading (uploadingPfx ++ origName),
         .reconcileRun (uploadingPfx ++ origName)] ∧
    (reconcileFails = true →
      (∀ nm, MdEvent.doneMove nm
        ∉ processMarkdownTrace pfx uploadingPfx donePfx origName ts true true) ∧
      (processMarkdownTrace pfx uploadingPfx donePfx origName ts true
          true).getLast?
        = some (.restorePending (pfx ++ origName))) ∧
    (reconcileFails = false →
      (processMarkdownTrace pfx uploadingPfx donePfx origName ts true
          false).getLast?
        = some (.doneMove (mdDoneName donePfx origName ts))) := by
  refine ⟨?_, fun _ => ⟨?_, ?_⟩, fun _ => ?_⟩
  · cases reconcileFails <;> rfl
  · intro nm hmem
    simp [processMarkdownTrace] at hmem
  · rfl
  · rfl

/-- **C4** (witness): concrete instantiation discharging both implication
hypotheses. -/
theorem C4_reconcile_before_done_witness :
    (processMarkdownTrace (pys "r_") (pys "u_") (pys "d_") (pys "a.md")
        (pys "_t") true true).take 2
      = [.toUploading (pys "u_" ++ pys "a.md"),
         .reconcileRun (pys "u_" ++ pys "a.md")] ∧
    (processMarkdownTrace (pys "r_") (pys "u_") (pys "d_") (pys "a.md")
        (pys "_t") true true).getLast?
      = some (.restorePending (pys "r_" ++ pys "a.md")) ∧
    (processMarkdownTrace (pys "r_") (pys "u_") (pys "d_") (pys "a.md")
        (pys "_t") true false).getLast?
      = some (.doneMove (mdDoneName (pys "d_") (pys "a.md") (pys "_t"))) := by
  refine ⟨(C4_reconcile_before_done (pys "r_") (pys "u_") (pys "d_")
      (pys "a.md") (pys "_t") true).1,
    ((C4_reconcile_before_done (pys "r_") (pys "u_") (pys "d_")
      (pys "a.md") (pys "_t") true).2.1 rfl).2,
    (C4_reconcile_before_done (pys "r_") (pys "u_") (pys "d_")
      (pys "a.md") (pys "_t") false).2.2 rfl⟩

/-! ## Configuration resolution (`ConfigManager`, lines 46-86)

`get_group_config` copies the base configuration, iterates the
`group_settings` entries in declaration order, and merges the processed
override of the first entry whose `regex` value — treated by Python's `in`
operator as a plain substring pattern, with a missing value defaulting to
the empty string, which is a substring of *every* filename — occurs in the
filename.  `_process_group_config` runs `value.format(code=code)` over
every string value, keeping the value verbatim on `KeyError` and letting
every other exception propagate, and finally assigns `code`. -/

/-- A configuration value: a string, or some other JSON value (number,
boolean, nested object, ...) that the template substitution passes through
unchanged. -/
inductive PyVal where
  | str (s : PyStr)
  | other (tag : Int)
deriving DecidableEq, Repr

/-- A Python dict as an association list; lookup returns the first
binding, and a merge puts the overriding bindings in front, preserving
Python's lookup semantics. -/
abbrev PyDict := List (PyStr × PyVal)

def dictLookup (d : PyDict) (k : PyStr) : Option PyVal :=
  (d.find? (fun p => p.1 == k)).map (·.2)

/-- `group_config.get('regex', '')` (line 67). -/
def groupPattern (g : PyDict) : PyStr :=
  match dictLookup g (pys "regex") with
  | some (.str s) => s
  | _ => []

/-- Python's `needle in hay` substring test; the empty needle is a
substring of everything. -/
def pyIn (needle hay : PyStr) : Bool := decide (needle <:+: hay)

/-- `FmtErr.keyError` is Python's `KeyError` (an undefined *named* field);
`FmtErr.otherError` covers the other exceptions `str.format` raises here
(`IndexError` for positional fields `{}`/`{0}` with no positional
arguments, `ValueError` for unbalanced braces). -/
inductive FmtErr where
  | keyError
  | otherError
deriving DecidableEq, Repr

/-- The scanning mode of `str.format`: plain text, or inside a replacement
field with the accumulated field name. -/
inductive FmtMode where
  | text
  | field (acc : PyStr)
deriving DecidableEq, Repr

/-- The format scanner: `{{` and `}}` are escapes, `{code}` substitutes,
any other named field raises `KeyError`, a positional field (`{}` or
digits) raises `IndexError`, and a stray or unclosed brace raises
`ValueError`. -/
def pyFormatM (code : PyStr) : FmtMode → PyStr → Except FmtErr PyStr
  | .text, [] => .ok []
  | .field _, [] => .error .otherError
  | .text, c :: rest =>
      if c = '{' then
        match rest with
        | [] => .error .otherError
        | c2 :: rest2 =>
            if c2 = '{' then (fun r => '{' :: r) <$> pyFormatM code .text rest2
            else if c2 = '}' then .error .otherError
            else pyFormatM code (.field [c2]) rest2
      else if c = '}' then
        match rest with
        | [] => .error .otherError
        | c2 :: rest2 =>
            if c2 = '}' then (fun r => '}' :: r) <$> pyFormatM code .text rest2
            else .error .otherError
      else (fun r => c :: r) <$> pyFormatM code .text rest
  | .field acc, c :: rest =>
      if c = '}' then
        if acc = pys "code" then (fun r => code ++ r) <$> pyFormatM code .text rest
        else if acc.isEmpty || acc.all Char.isDigit then .error .otherError
        else .error .keyError
      else pyFormatM code (.field (acc ++ [c])) rest

/-- `value.format(code=code)` (line 80). -/
def pyFormat (code s : PyStr) : Except FmtErr PyStr := pyFormatM code .text s

/-- The per-entry loop of `_process_group_config` (lines 77-84): string
values go through `format` — a `KeyError` keeps the value verbatim, any
other exception propagates — and non-string values pass through. -/
def processEntries (code : PyStr) : PyDict → Except Unit PyDict
  | [] => .ok []
  | (k, v) :: rest =>
      match v with
      | .str s =>
          match pyFormat code s with
          | .ok s2 => (fun d => (k, .str s2) :: d) <$> processEntries code rest
          | .error .keyError =>
              (fun d => (k, .str s) :: d) <$> processEntries code rest
          | .error .otherError => .error ()
      | .other n => (fun d => (k, .other n) :: d) <$> processEntries code rest

/-- `_process_group_config` (lines 74-86): process every entry, then
assign `code`.  The `code` binding is placed first so that it wins every
lookup, as the final Python assignment does. -/
def _process_group_config (g : PyDict) (code : PyStr) : Except Unit PyDict :=
  (fun d => (pys "code", .str code) :: d) <$> processEntries code g

/-- `base_config.update(processed_config)`: overriding bindings first, so
they win every lookup. -/
def dictUpdate (base overrides : PyDict) : PyDict := overrides ++ base

/-- The group-selection loop of `get_group_config` (lines 65-70): first
entry, in declaration order, whose pattern occurs in the filename. -/
def ggcLoop (base : PyDict) (filename : PyStr) :
    List (PyStr × PyDict) → Except Unit PyDict
  | [] => .ok base
  | (code, g) :: rest =>
      if pyIn (groupPattern g) filename then
        (fun p => dictUpdate base p) <$> _process_group_config g code
      else ggcLoop base filename rest

deriving instance DecidableEq for Except

/-- `get_group_config` (lines 61-72); `groups = none` models a
configuration without a `group_settings` key. -/
def get_group_config (base : PyDict) (groups : Option (List (PyStr × PyDict)))
    (filename : PyStr) : Except Unit PyDict :=
  match groups with
  | none => .ok base
  | some gs => ggcLoop base filename gs

/-- **C5** (counterexample).  A group entry with no (or an empty) `regex`
has pattern `''`, which is not a *non-empty* substring of any filename —
yet Python's `'' in filename` is true, so the code selects that entry and
injects its `code`, instead of returning the base configuration
unchanged. -/
theorem C5_empty_pattern_counterexample :
    groupPattern ([] : PyDict) = [] ∧
    get_group_config [] (some [(pys "g", [])]) (pys "movie1.mp4")
      = .ok [(pys "code", .str (pys "g"))] ∧
    get_group_config [] (some [(pys "g", [])]) (pys "movie1.mp4")
      ≠ .ok [] ∧
    dictLookup [(pys "code", PyVal.str (pys "g"))] (pys "code")
      = some (.str (pys "g")) := by
  refine ⟨rfl, by decide, by decide, by decide⟩

theorem exceptMap_ok {f : PyDict → PyDict} {e : Except Unit PyDict} {d : PyDict}
    (h : f <$> e = .ok d) : ∃ d0, e = .ok d0 ∧ f d0 = d := by
  cases e with
  | ok d0 => exact ⟨d0, rfl, by simpa [Except.map] using h⟩
  | error u => simp [Except.map] at h

/-- **C5** (amended).  Config resolution applies the override of exactly
the first group entry (in table declaration order) whose pattern — where a
missing pattern counts as the empty string, and the empty pattern is a
substring of *every* filename — occurs in the filename, and stops there;
`code` is bound to that entry's key.  Only when every entry has a pattern
not occurring in the filename (hence necessarily non-empty) is the base
configuration returned unchanged, with no `code` injected. -/
theorem C5_first_match_selection (base : PyDict) (filename : PyStr)
    (gs : List (PyStr × PyDict)) :
    (gs.find? (fun cg => pyIn (groupPattern cg.2) filename) = none →
      get_group_config base (some gs) filename = .ok base) ∧
    (∀ code g,
      gs.find? (fun cg => pyIn (groupPattern cg.2) filename) = some (code, g) →
      get_group_config base (some gs) filename
        = (fun p => dictUpdate base p) <$> _process_group_config g code ∧
      ∀ p, _process_group_config g code = .ok p →
        dictLookup (dictUpdate base p) (pys "code") = some (.str code)) := by
  have hcode : ∀ (code : PyStr) (g : PyDict) (p : PyDict),
      _process_group_config g code = .ok p →
      dictLookup (dictUpdate base p) (pys "code") = some (.str code) := by
    intro code g p hp
    rcases exceptMap_ok hp with ⟨d0, _, hfd⟩
    rw [← hfd]
    simp [dictLookup, dictUpdate]
  induction gs with
  | nil =>
      exact ⟨fun _ => rfl, fun code g h => by cases h⟩
  | cons cg rest ih =>
      rcases cg with ⟨c0, g0⟩
      by_cases hm : pyIn (groupPattern g0) filename = true
      · constructor
        · intro hn
          rw [List.find?_cons] at hn
          dsimp only at hn
          rw [hm] at hn
          cases hn
        · intro code g h
          rw [List.find?_cons] at h
          dsimp only at h
          rw [hm] at h
          have hpair : (c0, g0) = (code, g) := Option.some_inj.mp h
          have hc0 : c0 = code := congrArg Prod.fst hpair
          have hg0 : g0 = g := congrArg Prod.snd hpair
          subst hc0
          subst hg0
          constructor
          · show ggcLoop base filename ((c0, g0) :: rest) = _
            unfold ggcLoop
            rw [if_pos hm]
          · exact hcode c0 g0
      · have hm' : pyIn (groupPattern g0) filename = false := by
          simpa using hm
        have hred : get_group_config base (some ((c0, g0) :: rest)) filename
            = get_group_config base (some rest) filename := by
          show ggcLoop base filename ((c0, g0) :: rest) = _
          unfold ggcLoop
          rw [if_neg (by simp [hm'])]
          rfl
        constructor
        · intro hn
          rw [List.find?_cons] at hn
          dsimp only at hn
          rw [hm'] at hn
          rw [hred]
          exact ih.1 hn
        · intro code g h
          rw [List.find?_cons] at h
          dsimp only at h
          rw [hm'] at h
          rw [hred]
          exact ih.2 code g h

/-- **C5** (witness).  With two entries whose patterns both occur in
`r_p_13900.mp4`, the first in declaration order is selected, its `code`
`p_13900` is bound, and with no matching entry the base is returned
unchanged. -/
theorem C5_first_match_selection_witness :
    get_group_config [(pys "k", .other 0)]
        (some [(pys "p_13900", [(pys "regex", .str (pys "p_"))]),
               (pys "p_1", [(pys "regex", .str (pys "p_1"))])])
        (pys "r_p_13900.mp4")
      = (fun p => dictUpdate [(pys "k", .other 0)] p) <$>
          _process_group_config [(pys "regex", .str (pys "p_"))] (pys "p_13900") ∧
    get_group_config [(pys "k", .other 0)]
        (some [(pys "zzz", [(pys "regex", .str (pys "zzz"))])])
        (pys "r_p_13900.mp4")
      = .ok [(pys "k", .other 0)] := by
  constructor
  · exact ((C5_first_match_selection [(pys "k", .other 0)] (pys "r_p_13900.mp4")
      [(pys "p_13900", [(pys "regex", .str (pys "p_"))]),
       (pys "p_1", [(pys "regex", .str (pys "p_1"))])]).2
      (pys "p_13900") [(pys "regex", .str (pys "p_"))] (by decide)).1
  · exact (C5_first_match_selection [(pys "k", .other 0)] (pys "r_p_13900.mp4")
      [(pys "zzz", [(pys "regex", .str (pys "zzz"))])]).1 (by decide)

theorem pyFormat_cons_plain (code : PyStr) (c : Char) (rest : PyStr)
    (h1 : c ≠ '{') (h2 : c ≠ '}') :
    pyFormat code (c :: rest) = (fun r => c :: r) <$> pyFormat code rest := by
  show pyFormatM code .text (c :: rest) = _
  conv_lhs => unfold pyFormatM
  rw [if_neg h1, if_neg h2]
  rfl

theorem pyFormat_braceFree (code : PyStr) :
    ∀ s : PyStr, (∀ c ∈ s, c ≠ '{' ∧ c ≠ '}') → pyFormat code s = .ok s := by
  intro s
  induction s with
  | nil => intro _; rfl
  | cons c rest ih =>
      intro h
      have hc := h c (List.mem_cons_self _ _)
      rw [pyFormat_cons_plain code c rest hc.1 hc.2,
        ih (fun x hx => h x (List.mem_cons_of_mem _ hx))]
      rfl

theorem pyFormatM_field_accum (code : PyStr) (acc : PyStr) (c : Char)
    (rest : PyStr) (hc : c ≠ '}') :
    pyFormatM code (.field acc) (c :: rest)
      = pyFormatM code (.field (acc ++ [c])) rest := by
  conv_lhs => unfold pyFormatM
  rw [if_neg hc]

theorem pyFormatM_field_scan (code : PyStr) :
    ∀ (f acc rest : PyStr), (∀ c ∈ f, c ≠ '}') →
      pyFormatM code (.field acc) (f ++ '}' :: rest)
        = pyFormatM code (.field (acc ++ f)) ('}' :: rest) := by
  intro f
  induction f with
  | nil => intro acc rest _; rw [List.nil_append, List.append_nil]
  | cons c f ih =>
      intro acc rest h
      have hc : c ≠ '}' := h c (List.mem_cons_self _ _)
      show pyFormatM code (.field acc) (c :: (f ++ '}' :: rest)) = _
      rw [pyFormatM_field_accum code acc c _ hc,
        ih (acc ++ [c]) rest (fun x hx => h x (List.mem_cons_of_mem _ hx))]
      simp

theorem pyFormat_code_field (code b : PyStr)
    (hb : ∀ c ∈ b, c ≠ '{' ∧ c ≠ '}') :
    pyFormat code (pys "{code}" ++ b) = .ok (code ++ b) := by
  show pyFormatM code .text ('{' :: 'c' :: 'o' :: 'd' :: 'e' :: '}' :: b) = _
  have h1 : pyFormatM code .text ('{' :: 'c' :: 'o' :: 'd' :: 'e' :: '}' :: b)
      = pyFormatM code (.field ['c']) ('o' :: 'd' :: 'e' :: '}' :: b) := by
    conv_lhs => unfold pyFormatM
    rw [if_pos rfl]
    dsimp only
    rw [if_neg (by decide), if_neg (by decide)]
  have h2 : pyFormatM code (.field ['c']) ('o' :: 'd' :: 'e' :: '}' :: b)
      = pyFormatM code (.field (pys "code")) ('}' :: b) := by
    have h := pyFormatM_field_scan code (pys "ode") ['c'] b (by decide)
    simpa using h
  have h3 : pyFormatM code (.field (pys "code")) ('}' :: b)
      = (fun r => code ++ r) <$> pyFormatM code .text b := by
    conv_lhs => unfold pyFormatM
    rw [if_pos rfl, if_pos rfl]
  rw [h1, h2, h3]
  have h4 : pyFormatM code .text b = .ok b := pyFormat_braceFree code b hb
  rw [h4]
  rfl

theorem processEntries_cons_str (code k s : PyStr) (rest : PyDict) :
    processEntries code ((k, .str s) :: rest)
      = match pyFormat code s with
        | .ok s2 => (fun d => (k, .str s2) :: d) <$> processEntries code rest
        | .error .keyError =>
            (fun d => (k, .str s) :: d) <$> processEntries code rest
        | .error .otherError => .error () := rfl

theorem processEntries_cons_other (code k : PyStr) (n : Int) (rest : PyDict) :
    processEntries code ((k, .other n) :: rest)
      = (fun d => (k, .other n) :: d) <$> processEntries code rest := rfl

theorem processEntries_keyError_mem (code : PyStr) :
    ∀ (g d : PyDict) (k s : PyStr),
      processEntries code g = .ok d → (k, .str s) ∈ g →
      pyFormat code s = .error .keyError → (k, .str s) ∈ d := by
  intro g
  induction g with
  | nil => intro d k s _ hmem; cases hmem
  | cons kv rest ih =>
      intro d k s hok hmem hkey
      rcases kv with ⟨k', v'⟩
      rcases List.mem_cons.mp hmem with heq | htail
      · have hk : k' = k := congrArg Prod.fst heq.symm
        have hv : v' = .str s := congrArg Prod.snd heq.symm
        subst hk
        subst hv
        rw [processEntries_cons_str, hkey] at hok
        rcases exceptMap_ok hok with ⟨d0, _, hfd⟩
        rw [← hfd]
        exact List.mem_cons_self _ _
      · cases v' with
        | str s' =>
            rw [processEntries_cons_str] at hok
            cases hpf : pyFormat code s' with
            | ok s2 =>
                rw [hpf] at hok
                rcases exceptMap_ok hok with ⟨d0, hd0, hfd⟩
                rw [← hfd]
                exact List.mem_cons_of_mem _ (ih d0 k s hd0 htail hkey)
            | error e =>
                cases e with
                | keyError =>
                    rw [hpf] at hok
                    rcases exceptMap_ok hok with ⟨d0, hd0, hfd⟩
                    rw [← hfd]
                    exact List.mem_cons_of_mem _ (ih d0 k s hd0 htail hkey)
                | otherError =>
                    rw [hpf] at hok
                    cases hok
        | other n =>
            rw [processEntries_cons_other] at hok
            rcases exceptMap_ok hok with ⟨d0, hd0, hfd⟩
            rw [← hfd]
            exact List.mem_cons_of_mem _ (ih d0 k s hd0 htail hkey)

theorem processEntries_other_mem (code : PyStr) :
    ∀ (g d : PyDict) (k : PyStr) (n : Int),
      processEntries code g = .ok d → (k, .other n) ∈ g → (k, .other n) ∈ d := by
  intro g
  induction g with
  | nil => intro d k n _ hmem; cases hmem
  | cons kv rest ih =>
      intro d k n hok hmem
      rcases kv with ⟨k', v'⟩
      rcases List.mem_cons.mp hmem with heq | htail
      · have hk : k' = k := congrArg Prod.fst heq.symm
        have hv : v' = .other n := congrArg Prod.snd heq.symm
        subst hk
        subst hv
        rw [processEntries_cons_other] at hok
        rcases exceptMap_ok hok with ⟨d0, _, hfd⟩
        rw [← hfd]
        exact List.mem_cons_self _ _
      · cases v' with
        | str s' =>
            rw [processEntries_cons_str] at hok
            cases hpf : pyFormat code s' with
            | ok s2 =>
                rw [hpf] at hok
                rcases exceptMap_ok hok with ⟨d0, hd0, hfd⟩
                rw [← hfd]
                exact List.mem_cons_of_mem _ (ih d0 k n hd0 htail)
            | error e =>
                cases e with
                | keyError =>
                    rw [hpf] at hok
                    rcases exceptMap_ok hok with ⟨d0, hd0, hfd⟩
                    rw [← hfd]
                    exact List.mem_cons_of_mem _ (ih d0 k n hd0 htail)
                | otherError =>
                    rw [hpf] at hok
                    cases hok
        | other n' =>
            rw [processEntries_cons_other] at hok
            rcases exceptMap_ok hok with ⟨d0, hd0, hfd⟩
            rw [← hfd]
            exact List.mem_cons_of_mem _ (ih d0 k n hd0 htail)

theorem processEntries_otherError (code : PyStr) :
    ∀ (g : PyDict) (k s : PyStr), (k, .str s) ∈ g →
      pyFormat code s = .error .otherError →
      processEntries code g = .error () := by
  intro g
  induction g with
  | nil => intro k s hmem; cases hmem
  | cons kv rest ih =>
      intro k s hmem hpf
      rcases kv with ⟨k', v'⟩
      rcases List.mem_cons.mp hmem with heq | htail
      · have hk : k' = k := congrArg Prod.fst heq.symm
        have hv : v' = .str s := congrArg Prod.snd heq.symm
        subst hk
        subst hv
        rw [processEntries_cons_str, hpf]
      · cases v' with
        | str s' =>
            rw [processEntries_cons_str]
            cases hpf' : pyFormat code s' with
            | ok s2 => rw [ih k s htail hpf]; rfl
            | error e =>
                cases e with
                | keyError => rw [ih k s htail hpf]; rfl
                | otherError => rfl
        | other n' =>
            rw [processEntries_cons_other, ih k s htail hpf]
            rfl

/-- **C6** (counterexample).  Template substitution is neither total nor a
per-token substitution.  The value `"{foo} {code}"` *contains* the `code`
token, yet it is returned fully verbatim — the undefined token `{foo}`
raises `KeyError` for the whole `format` call, which the code catches by
keeping the original value.  And the value `"{}"` raises `IndexError`,
which is *not* caught: configuration resolution fails. -/
theorem C6_format_counterexample :
    pyFormat (pys "k") (pys "{foo} {code}") = .error .keyError ∧
    _process_group_config [(pys "title", .str (pys "{foo} {code}"))] (pys "k")
      = .ok [(pys "code", .str (pys "k")),
             (pys "title", .str (pys "{foo} {code}"))] ∧
    _process_group_config [(pys "t", .str (pys "{}"))] (pys "k")
      = .error () := by
  refine ⟨by decide, by decide, by decide⟩

/-- **C6** (amended).  Group-override template substitution is
per-value atomic and not total: a brace-free string value is returned
unchanged; a value that is brace-free text around a single `{code}` field
has `code` substituted; a value containing any undefined *named* field is
returned fully verbatim — even if it also contains the `code` token — via
the caught `KeyError`; non-string values pass through unchanged; and a
value containing a positional (`{}`/`{0}`) or malformed field raises an
uncaught error that aborts configuration resolution. -/
theorem C6_template_substitution (code : PyStr) :
    (∀ s : PyStr, (∀ c ∈ s, c ≠ '{' ∧ c ≠ '}') → pyFormat code s = .ok s) ∧
    (∀ a b : PyStr, (∀ c ∈ a, c ≠ '{' ∧ c ≠ '}') →
      (∀ c ∈ b, c ≠ '{' ∧ c ≠ '}') →
      pyFormat code (a ++ pys "{code}" ++ b) = .ok (a ++ code ++ b)) ∧
    (∀ (g d : PyDict) (k s : PyStr), _process_group_config g code = .ok d →
      (k, .str s) ∈ g → pyFormat code s = .error .keyError → (k, .str s) ∈ d) ∧
    (∀ (g d : PyDict) (k : PyStr) (n : Int), _process_group_config g code = .ok d →
      (k, .other n) ∈ g → (k, .other n) ∈ d) ∧
    (∀ (g : PyDict) (k s : PyStr), (k, .str s) ∈ g →
      pyFormat code s = .error .otherError →
      _process_group_config g code = .error ()) := by
  refine ⟨pyFormat_braceFree code, ?_, ?_, ?_, ?_⟩
  · intro a
    induction a with
    | nil =>
        intro b _ hb
        simpa using pyFormat_code_field code b hb
    | cons c a ih =>
        intro b ha hb
        have hc := ha c (List.mem_cons_self _ _)
        have hshape : (c :: a) ++ pys "{code}" ++ b
            = c :: (a ++ pys "{code}" ++ b) := by simp
        rw [hshape, pyFormat_cons_plain code c _ hc.1 hc.2,
          ih b (fun x hx => ha x (List.mem_cons_of_mem _ hx)) hb]
        rfl
  · intro g d k s hok hmem hkey
    rcases exceptMap_ok hok with ⟨d0, hd0, hfd⟩
    rw [← hfd]
    exact List.mem_cons_of_mem _ (processEntries_keyError_mem code g d0 k s hd0 hmem hkey)
  · intro g d k n hok hmem
    rcases exceptMap_ok hok with ⟨d0, hd0, hfd⟩
    rw [← hfd]
    exact List.mem_cons_of_mem _ (processEntries_other_mem code g d0 k n hd0 hmem)
  · intro g k s hmem hpf
    show (fun d => (pys "code", PyVal.str code) :: d) <$> processEntries code g
      = .error ()
    rw [processEntries_otherError code g k s hmem hpf]
    rfl

/-- **C6** (witness).  Concrete instances: a plain value stays unchanged;
`logs/{code}/x.md` gets `g1` substituted; a `{what}` value survives
verbatim in a successfully processed group; an `{}` value aborts. -/
theorem C6_template_substitution_witness :
    pyFormat (pys "g1") (pys "hello") = .ok (pys "hello") ∧
    pyFormat (pys "g1") (pys "logs/" ++ pys "{code}" ++ pys "/x.md")
      = .ok (pys "logs/" ++ pys "g1" ++ pys "/x.md") ∧
    ((pys "t", PyVal.str (pys "{what}")) ∈
      [(pys "code", PyVal.str (pys "g1")), (pys "t", PyVal.str (pys "{what}"))]) ∧
    _process_group_config [(pys "t", .str (pys "{}"))] (pys "g1") = .error () := by
  refine ⟨(C6_template_substitution (pys "g1")).1 (pys "hello") (by decide),
    (C6_template_substitution (pys "g1")).2.1 (pys "logs/") (pys "/x.md")
      (by decide) (by decide),
    (C6_template_substitution (pys "g1")).2.2.1
      [(pys "t", PyVal.str (pys "{what}"))]
      [(pys "code", PyVal.str (pys "g1")), (pys "t", PyVal.str (pys "{what}"))]
      (pys "t") (pys "{what}") (by decide) (by decide) (by decide),
    (C6_template_substitution (pys "g1")).2.2.2.2
      [(pys "t", PyVal.str (pys "{}"))] (pys "t") (pys "{}")
      (by decide) (by decide)⟩
